import Mathlib

/-!
Verification development for `pybamm/expression_tree/evaluate.py`.

The Python module compiles a symbolic expression tree into two ordered
dictionaries — `constant_symbols` (node id ↦ numeric value) and
`variable_symbols` (node id ↦ a line of generated python code) — via
`find_symbols`, and wraps them in an `EvaluatorPython` object whose
`evaluate(t, y, known_evals)` method executes the generated lines in order
and returns the value of the root node's generated variable.

This file gives a shallow embedding of that module:

* `Value` models the numeric values flowing through the generated code
  (python scalars, dense numpy arrays, scipy sparse matrices, and function
  objects stored in the constant table).  A sparse matrix is modelled as a
  matrix tagged `sp := true`; the operations below model the numpy/scipy
  primitives the generated code uses, over exact rationals.
* `Symb` models `pybamm.Symbol` trees (structural identity is literal
  structural equality of trees, which is what `symbol.id` implements via
  hashing).  `SymbList` is a bespoke list type so that all recursions are
  structural and therefore compute by `rfl`/`decide`.
* `dEval` models direct recursive evaluation, `pybamm.Symbol.evaluate`.
* `find_symbols`, `instrOf`, `emitVar` model `find_symbols`; generated
  python source strings are modelled by the instruction AST `PyExpr`, one
  constructor per shape of string the source can emit.
* `Evaluator`, `compile`, `Evaluator.evaluate` model `EvaluatorPython`.
  Note the generated variable names are `self.var_xxxxx`, so executing the
  program binds *attributes on the evaluator object*; the model therefore
  returns the updated evaluator from `evaluate`.
-/

/-! ## Values: a model of the numbers the generated code computes with -/

/-- A (dense) matrix as a list of rows of rationals. -/
abbrev Mat : Type := List (List ℚ)

/-- Elementwise map over a matrix. -/
def matMap (f : ℚ → ℚ) (m : Mat) : Mat := m.map (fun r => r.map f)

/-- Scale a matrix by a rational. -/
def matScale (q : ℚ) (m : Mat) : Mat := matMap (fun x => q * x) m

/-- The list of row lengths, used as the shape for elementwise operations. -/
def rowShape (m : Mat) : List Nat := m.map List.length

/-- Elementwise combination of two matrices of identical shape (models
numpy broadcasting-free elementwise arithmetic; a shape mismatch is a
runtime error). -/
def ewise (f : ℚ → ℚ → ℚ) (m₁ m₂ : Mat) : Option Mat :=
  if rowShape m₁ = rowShape m₂ then some (List.zipWith (List.zipWith f) m₁ m₂) else none

/-- Dot product of two rows. -/
def dot (xs ys : List ℚ) : ℚ := (List.zipWith (fun a b => a * b) xs ys).sum

/-- Column `j` of a matrix. -/
def matColumn (m : Mat) (j : Nat) : List ℚ := m.map (fun r => r.getD j 0)

/-- Matrix product (models what `*` means in python when a scipy sparse
operand is involved — the reason the generated code dispatches away from
`*` for elementwise multiplication). -/
def matMulM (a b : Mat) : Option Mat :=
  if a.all (fun r => r.length = b.length) then
    some (a.map (fun r => (List.range ((b.head?.map List.length).getD 0)).map
      (fun j => dot r (matColumn b j))))
  else none

/-- A runtime value of the generated code: a python scalar, a numpy dense
array (`sp := false`) or scipy sparse matrix (`sp := true`), or a python
function object (function handles are stored in the constant table by the
`Function` codegen rule; `h` indexes an external function environment). -/
inductive Value where
  | scalar (q : ℚ)
  | arr (sp : Bool) (m : Mat)
  | funv (h : Nat)
  deriving DecidableEq

/-- Models `scipy.sparse.issparse`. -/
def Value.issparse : Value → Bool
  | .arr true _ => true
  | _ => false

/-- Forget sparsity: the dense array with the same entries. -/
def Value.toDense : Value → Value
  | .arr _ m => .arr false m
  | v => v

/-- Models the sparse receiver method `x.multiply(y)`: elementwise product
with a sparse result (scalar second operands broadcast, as in scipy). -/
def spMultiply : Value → Value → Option Value
  | .arr _ m, .scalar q => some (.arr true (matScale q m))
  | .arr _ m₁, .arr _ m₂ => (ewise (fun a b => a * b) m₁ m₂).map (.arr true)
  | _, _ => none

/-- Models python `1/x` (note: over `ℚ`, `1/0 = 0`, whereas numpy would
produce an `inf`; no claim depends on division by zero). -/
def recipV : Value → Option Value
  | .scalar q => some (.scalar (1 / q))
  | .arr false m => some (.arr false (matMap (fun x => 1 / x) m))
  | _ => none

/-- Models python `x * y`: scalar products and scalar scaling are
elementwise, but if a sparse matrix operand meets a matrix, `*` is the
matrix product (scipy semantics) — which is why `find_symbols` emits a
runtime dispatch for `Multiplication` instead of plain `*`. -/
def numMul : Value → Value → Option Value
  | .scalar p, .scalar q => some (.scalar (p * q))
  | .scalar p, .arr sp m => some (.arr sp (matScale p m))
  | .arr sp m, .scalar p => some (.arr sp (matScale p m))
  | .arr sp₁ m₁, .arr sp₂ m₂ =>
      if sp₁ || sp₂ then (matMulM m₁ m₂).map (.arr (sp₁ && sp₂))
      else (ewise (fun a b => a * b) m₁ m₂).map (.arr false)
  | _, _ => none

/-- Models python `x / y` (dense only; `/` with sparse matrix operands is
not supported by scipy, which is why `Division` dispatches to
`x.multiply(1/y)` when `x` is sparse). -/
def numDiv : Value → Value → Option Value
  | .scalar p, .scalar q => some (.scalar (p / q))
  | .arr sp m, .scalar q => some (.arr sp (matMap (fun x => x / q) m))
  | .scalar p, .arr false m => some (.arr false (matMap (fun x => p / x) m))
  | .arr false m₁, .arr false m₂ => (ewise (fun a b => a / b) m₁ m₂).map (.arr false)
  | _, _ => none

/-- Elementwise addition-like operation with scalar broadcasting, the model
of a generic python binary operator such as `+` or `-`. -/
def ewiseBroadcast (f : ℚ → ℚ → ℚ) : Value → Value → Option Value
  | .scalar p, .scalar q => some (.scalar (f p q))
  | .scalar p, .arr false m => some (.arr false (matMap (fun x => f p x) m))
  | .arr false m, .scalar q => some (.arr false (matMap (fun x => f x q) m))
  | .arr sp₁ m₁, .arr sp₂ m₂ => (ewise f m₁ m₂).map (.arr (sp₁ && sp₂))
  | _, _ => none

/-- The generic binary operators handled by the fallthrough rule
`children_vars[0] + symbol.name + children_vars[1]` (pybamm `Addition`,
`Subtraction`). -/
inductive BOp where
  | add
  | sub
  deriving DecidableEq

/-- Semantics of a generic binary operator name. -/
def binSem : BOp → Value → Value → Option Value
  | .add => ewiseBroadcast (fun a b => a + b)
  | .sub => ewiseBroadcast (fun a b => a - b)

/-- The generic unary operators handled by the fallthrough rule
`symbol.name + children_vars[0]` (pybamm `Negate`). -/
inductive UOp where
  | neg
  deriving DecidableEq

/-- Semantics of a generic unary operator name. -/
def unSem : UOp → Value → Option Value
  | .neg, .scalar q => some (.scalar (-q))
  | .neg, .arr sp m => some (.arr sp (matScale (-1) m))
  | .neg, _ => none

/-- Models the generated `Multiplication` line
`x.multiply(y) if issparse(x) else y.multiply(x) if issparse(y) else x * y`:
a runtime three-way dispatch that checks the left operand first. -/
def dispatchMulV (a b : Value) : Option Value :=
  if a.issparse then spMultiply a b
  else if b.issparse then spMultiply b a
  else numMul a b

/-- Models the generated `Division` line
`x.multiply(1/y) if issparse(x) else x / y`. -/
def dispatchDivV (a b : Value) : Option Value :=
  if a.issparse then (recipV b).bind (spMultiply a)
  else numDiv a b

/-- Models python `x[i]` on a (column-vector shaped) matrix value, the
generated line for `pybamm.Index`. -/
def indexV : Value → Nat → Option Value
  | .arr sp m, i => if i < m.length then some (.arr sp ((m.drop i).take 1)) else none
  | _, _ => none

/-- Row slice `m[a:b]`. -/
def sliceRows (m : Mat) (a b : Nat) : Mat := (m.drop a).take (b - a)

/-- Models python `x[a:b]` on a matrix value (dense or sparse row slice). -/
def valSlice : Value → Nat → Nat → Option Value
  | .arr sp m, a, b => some (.arr sp (sliceRows m a b))
  | _, _, _ => none

/-- Option-valued map over a list (the `Option` monad's `mapM`, restated
recursively so that every lemma about it is a one-line induction). -/
def omap {α β : Type} (f : α → Option β) : List α → Option (List β)
  | [] => some []
  | a :: l => (f a).bind (fun b => (omap f l).map (fun bs => b :: bs))

/-- Models `np.concatenate((...))` on a tuple of dense column vectors
(an empty tuple or a non-dense argument is a runtime error). -/
def vconcatV (vs : List Value) : Option Value :=
  match vs with
  | [] => none
  | _ => (omap (fun v => match v with | .arr false m => some m | _ => none) vs).map
      (fun ms => Value.arr false ms.flatten)

/-- Models `scipy.sparse.vstack((...))`: accepts dense or sparse blocks and
produces a sparse result; an empty tuple is a runtime error. -/
def vstackV (vs : List Value) : Option Value :=
  match vs with
  | [] => none
  | _ => (omap (fun v => match v with | .arr _ m => some m | _ => none) vs).map
      (fun ms => Value.arr true ms.flatten)

/-- Models the generated `StateVector` reference `y[a:b]` (`y` is the
reshaped column-vector state; a missing `y` is a runtime error). -/
def yslice (y : Option Mat) (a b : Nat) : Option Value :=
  y.map (fun m => Value.arr false (sliceRows m a b))

/-! ## Symbols: the expression tree (`pybamm.Symbol`) -/

/-- Per-child slice metadata of a `DomainConcatenation`: an ordered
association of sub-domain name to a `(start, stop)` slice (this models the
ordered dicts `symbol._children_slices[i]` and `symbol._slices`). -/
abbrev DomSlices : Type := List (String × Nat × Nat)

/-- Lookup of a domain name in a slice table; a miss models a python
`KeyError`. -/
def domLookup : DomSlices → String → Option (Nat × Nat)
  | [], _ => none
  | (k', a, b) :: rest, k => if k = k' then some (a, b) else domLookup rest k

mutual
/-- The expression tree, one constructor per node kind `find_symbols`
distinguishes: `const` covers the input-independent leaves (`Matrix`,
`Scalar`, `Vector`); `bin`/`mul`/`div` the `BinaryOperator`s; `fn`/`idx`/`un`
the `UnaryOperator`s (`Function`, `Index`, generic); the three concatenation
sub-kinds; `stateVector` (`y[a:b]`) and `time`; `concatOther` models a
`Concatenation` subclass that is none of the three recognized ones, and
`unsupported` a node type outside every recognized kind.  Structural
identity of subtrees (`symbol.id`) is structural equality of `Symb`. -/
inductive Symb where
  | const (v : Value)
  | bin (op : BOp) (a b : Symb)
  | mul (a b : Symb)
  | div (a b : Symb)
  | fn (h : Nat) (a : Symb)
  | idx (i : Nat) (a : Symb)
  | un (op : UOp) (a : Symb)
  | npConcat (cs : SymbList)
  | spStack (cs : SymbList)
  | domConcat (cs : SymbList) (childSlices : List DomSlices) (finalSlices : DomSlices)
  | stateVector (a b : Nat)
  | time
  | concatOther (kind : String) (cs : SymbList)
  | unsupported (kind : String) (cs : SymbList)
/-- Children lists, as a bespoke type mutual with `Symb` so that recursion
over trees is structural. -/
inductive SymbList where
  | nil
  | cons (c : Symb) (cs : SymbList)
end

mutual
/-- Boolean structural equality of trees. -/
def Symb.beq : Symb → Symb → Bool
  | .const v, .const w => decide (v = w)
  | .bin o a b, .bin o' a' b' => decide (o = o') && Symb.beq a a' && Symb.beq b b'
  | .mul a b, .mul a' b' => Symb.beq a a' && Symb.beq b b'
  | .div a b, .div a' b' => Symb.beq a a' && Symb.beq b b'
  | .fn h a, .fn h' a' => decide (h = h') && Symb.beq a a'
  | .idx i a, .idx i' a' => decide (i = i') && Symb.beq a a'
  | .un o a, .un o' a' => decide (o = o') && Symb.beq a a'
  | .npConcat l, .npConcat l' => SymbList.beq l l'
  | .spStack l, .spStack l' => SymbList.beq l l'
  | .domConcat l c f, .domConcat l' c' f' =>
      SymbList.beq l l' && decide (c = c') && decide (f = f')
  | .stateVector a b, .stateVector a' b' => decide (a = a') && decide (b = b')
  | .time, .time => true
  | .concatOther k l, .concatOther k' l' => decide (k = k') && SymbList.beq l l'
  | .unsupported k l, .unsupported k' l' => decide (k = k') && SymbList.beq l l'
  | _, _ => false
/-- Boolean structural equality of children lists. -/
def SymbList.beq : SymbList → SymbList → Bool
  | .nil, .nil => true
  | .cons a l, .cons a' l' => Symb.beq a a' && SymbList.beq l l'
  | _, _ => false
end

set_option maxHeartbeats 1600000 in
mutual
/-- `Symb.beq` decides equality. -/
def Symb.beq_iff : (a b : Symb) → (Symb.beq a b = true ↔ a = b)
  | .const v, b => by cases b <;> simp [Symb.beq]
  | .bin o a₁ a₂, b => by
      cases b <;> simp [Symb.beq]
      case bin o' b₁ b₂ =>
        rw [Symb.beq_iff a₁ b₁, Symb.beq_iff a₂ b₂]
        try tauto
  | .mul a₁ a₂, b => by
      cases b <;> simp [Symb.beq]
      case mul b₁ b₂ =>
        rw [Symb.beq_iff a₁ b₁, Symb.beq_iff a₂ b₂]
        try tauto
  | .div a₁ a₂, b => by
      cases b <;> simp [Symb.beq]
      case div b₁ b₂ =>
        rw [Symb.beq_iff a₁ b₁, Symb.beq_iff a₂ b₂]
        try tauto
  | .fn h a, b => by
      cases b <;> simp [Symb.beq]
      case fn h' a' =>
        rw [Symb.beq_iff a a']
        try tauto
  | .idx i a, b => by
      cases b <;> simp [Symb.beq]
      case idx i' a' =>
        rw [Symb.beq_iff a a']
        try tauto
  | .un o a, b => by
      cases b <;> simp [Symb.beq]
      case un o' a' =>
        rw [Symb.beq_iff a a']
        try tauto
  | .npConcat l, b => by
      cases b <;> simp [Symb.beq]
      case npConcat l' => rw [SymbList.beq_iff l l']
  | .spStack l, b => by
      cases b <;> simp [Symb.beq]
      case spStack l' => rw [SymbList.beq_iff l l']
  | .domConcat l c f, b => by
      cases b <;> simp [Symb.beq]
      case domConcat l' c' f' =>
        rw [SymbList.beq_iff l l']
        tauto
  | .stateVector a₁ a₂, b => by cases b <;> simp [Symb.beq]
  | .time, b => by cases b <;> simp [Symb.beq]
  | .concatOther k l, b => by
      cases b <;> simp [Symb.beq]
      case concatOther k' l' =>
        rw [SymbList.beq_iff l l']
        tauto
  | .unsupported k l, b => by
      cases b <;> simp [Symb.beq]
      case unsupported k' l' =>
        rw [SymbList.beq_iff l l']
        tauto
  termination_by a b => sizeOf a
/-- `SymbList.beq` decides equality. -/
def SymbList.beq_iff : (l l' : SymbList) → (SymbList.beq l l' = true ↔ l = l')
  | .nil, l' => by cases l' <;> simp [SymbList.beq]
  | .cons a l, l' => by
      cases l' <;> simp [SymbList.beq]
      case cons a' rest =>
        rw [Symb.beq_iff a a', SymbList.beq_iff l rest]
        try tauto
  termination_by l l' => sizeOf l
end

instance : DecidableEq Symb := fun a b => decidable_of_iff _ (Symb.beq_iff a b)

instance : DecidableEq SymbList := fun a b => decidable_of_iff _ (SymbList.beq_iff a b)

/-- Children lists converted to ordinary lists (used by non-recursive code
such as the codegen rules, mirroring iteration over `symbol.children`). -/
def SymbList.toList : SymbList → List Symb
  | .nil => []
  | .cons c cs => c :: cs.toList

/-- The children of a node, mirroring `symbol.children`. -/
def Symb.childrenL : Symb → List Symb
  | .const _ => []
  | .bin _ a b => [a, b]
  | .mul a b => [a, b]
  | .div a b => [a, b]
  | .fn _ a => [a]
  | .idx _ a => [a]
  | .un _ a => [a]
  | .npConcat l => l.toList
  | .spStack l => l.toList
  | .domConcat l _ _ => l.toList
  | .stateVector _ _ => []
  | .time => []
  | .concatOther _ l => l.toList
  | .unsupported _ l => l.toList

/-- The python class name of a node, as interpolated by the
`NotImplementedError` message of the fallthrough branch. -/
def Symb.kindName : Symb → String
  | .const _ => "Matrix"
  | .bin _ _ _ => "BinaryOperator"
  | .mul _ _ => "Multiplication"
  | .div _ _ => "Division"
  | .fn _ _ => "Function"
  | .idx _ _ => "Index"
  | .un _ _ => "UnaryOperator"
  | .npConcat _ => "NumpyConcatenation"
  | .spStack _ => "SparseStack"
  | .domConcat _ _ _ => "DomainConcatenation"
  | .stateVector _ _ => "StateVector"
  | .time => "Time"
  | .concatOther k _ => k
  | .unsupported k _ => k

mutual
/-- Whether the tree contains a `StateVector` or `Time` leaf, i.e. whether
its value depends on the `t`/`y` inputs. -/
def Symb.containsTY : Symb → Bool
  | .const _ => false
  | .bin _ a b => a.containsTY || b.containsTY
  | .mul a b => a.containsTY || b.containsTY
  | .div a b => a.containsTY || b.containsTY
  | .fn _ a => a.containsTY
  | .idx _ a => a.containsTY
  | .un _ a => a.containsTY
  | .npConcat l => SymbList.containsTY l
  | .spStack l => SymbList.containsTY l
  | .domConcat l _ _ => SymbList.containsTY l
  | .stateVector _ _ => true
  | .time => true
  | .concatOther _ l => SymbList.containsTY l
  | .unsupported _ l => SymbList.containsTY l
/-- Any-child version of `Symb.containsTY`. -/
def SymbList.containsTY : SymbList → Bool
  | .nil => false
  | .cons c cs => c.containsTY || SymbList.containsTY cs
end

/-- Modelled from the spec: the Constant Classifier, `symbol.is_constant()`
(`pybamm.Symbol.is_constant` is not part of the excerpted source).  Per the
spec a node is constant iff its evaluated value is independent of the
time/state inputs — here, iff no `StateVector`/`Time` leaf occurs in it. -/
def Symb.is_constant (s : Symb) : Bool := !s.containsTY

/-! ## Direct recursive evaluation (`pybamm.Symbol.evaluate`) -/

/-- All `(final-start, payload, child-slice-start, child-slice-stop)`
records of a `DomainConcatenation`, in declaration order: for each
`(child, slice-table)` pair (python `zip(children_vars,
symbol._children_slices)`, which truncates to the shorter list like `zip`)
and each `(domain, slice)` item of the table, the final-output start
`symbol._slices[domain].start` is paired with the child payload and the
child-local slice bounds.  A missing domain models the `KeyError` that
`symbol._slices[child_dom]` would raise.  The payload is polymorphic: the
codegen instantiates it with child references, direct evaluation with child
values. -/
def domTriples {α : Type} (items : List α) (childSlices : List DomSlices)
    (finalSlices : DomSlices) : Option (List (Nat × α × Nat × Nat)) :=
  (omap (fun p => omap (fun sl => (domLookup finalSlices sl.1).map
      (fun fs => (fs.1, p.1, sl.2.1, sl.2.2))) p.2)
    (items.zip childSlices)).map List.flatten

/-- Stable insertion into a key-sorted list (insert before the first
strictly-or-equally larger key, keeping earlier-inserted equal keys first). -/
def insSorted {β : Type} (x : Nat × β) : List (Nat × β) → List (Nat × β)
  | [] => [x]
  | y :: ys => if x.1 ≤ y.1 then x :: y :: ys else y :: insSorted x ys

/-- Stable sort by the `Nat` key, the model of
`sorted(zip(slice_starts, child_vectors))` (python's pair sort; on the
distinct starts produced by distinct domains the two agree). -/
def sortByKey {β : Type} : List (Nat × β) → List (Nat × β)
  | [] => []
  | x :: xs => insSorted x (sortByKey xs)

/-- Modelled from the spec: direct evaluation of a `DomainConcatenation`
node given its children's values (`DomainConcatenation.evaluate` is not
part of the excerpted source; per the spec, the children's sub-domain
slices are emitted sorted by their start position in the final output, and
a single-child concatenation passes the child through unchanged). -/
def domConcatEval (vals : List Value) (csl : List DomSlices) (fsl : DomSlices) :
    Option Value :=
  match vals with
  | [v] => some v
  | _ => (domTriples vals csl fsl).bind (fun tr =>
      (omap (fun q => valSlice q.2.1 q.2.2.1 q.2.2.2) (sortByKey tr)).bind vconcatV)

mutual
/-- Modelled from the spec: direct recursive evaluation of the tree,
`symbol.evaluate(t, y)` (the `pybamm.Symbol.evaluate` implementations are
not part of the excerpted source).  `Φ` interprets function handles, `t`
and `y` are the scalar time and the column-vector state; every failure mode
(missing input, shape mismatch, unsupported node) is `none`. -/
def dEval (Φ : Nat → Value → Option Value) (t : Option ℚ) (y : Option Mat) :
    Symb → Option Value
  | .const v => some v
  | .bin op a b => (dEval Φ t y a).bind (fun va =>
      (dEval Φ t y b).bind (fun vb => binSem op va vb))
  | .mul a b => (dEval Φ t y a).bind (fun va =>
      (dEval Φ t y b).bind (fun vb => dispatchMulV va vb))
  | .div a b => (dEval Φ t y a).bind (fun va =>
      (dEval Φ t y b).bind (fun vb => dispatchDivV va vb))
  | .fn h a => (dEval Φ t y a).bind (Φ h)
  | .idx i a => (dEval Φ t y a).bind (fun v => indexV v i)
  | .un op a => (dEval Φ t y a).bind (unSem op)
  | .npConcat l => (dEvalList Φ t y l).bind vconcatV
  | .spStack l => (dEvalList Φ t y l).bind vstackV
  | .domConcat l csl fsl => (dEvalList Φ t y l).bind
      (fun vals => domConcatEval vals csl fsl)
  | .stateVector a b => yslice y a b
  | .time => t.map Value.scalar
  | .concatOther _ _ => none
  | .unsupported _ _ => none
/-- Evaluation of a children list, left to right. -/
def dEvalList (Φ : Nat → Value → Option Value) (t : Option ℚ) (y : Option Mat) :
    SymbList → Option (List Value)
  | .nil => some []
  | .cons c rest => (dEval Φ t y c).bind (fun v =>
      (dEvalList Φ t y rest).map (fun vs => v :: vs))
end

/-! ## The generated program -/

/-- A reference to a generated python variable,
`id_to_python_variable(symbol_id, constant)`: the node identity together
with the constant flag (`self.const_xxx` vs `self.var_xxx`). -/
abbrev Ref : Type := Symb × Bool

/-- The reference generated for a child,
`id_to_python_variable(child.id, child.is_constant())`. -/
def cref (c : Symb) : Ref := (c, c.is_constant)

/-- The instruction AST: one constructor per shape of python code string
`find_symbols` can emit as a `symbol_str`. `blank` models the empty string
emitted for a zero-child concatenation. -/
inductive PyExpr where
  | ref (r : Ref)
  | binG (op : BOp) (a b : Ref)
  | dispatchMul (a b : Ref)
  | dispatchDiv (a b : Ref)
  | call (f a : Ref)
  | index (a : Ref) (i : Nat)
  | unG (op : UOp) (a : Ref)
  | npConcat (rs : List Ref)
  | spStack (rs : List Ref)
  | npConcatSlices (parts : List (Ref × Nat × Nat))
  | yRef (a b : Nat)
  | tRef
  | blank
  deriving DecidableEq

/-- The references a generated instruction reads. -/
def PyExpr.refs : PyExpr → List Ref
  | .ref r => [r]
  | .binG _ a b => [a, b]
  | .dispatchMul a b => [a, b]
  | .dispatchDiv a b => [a, b]
  | .call f a => [f, a]
  | .index a _ => [a]
  | .unG _ a => [a]
  | .npConcat rs => rs
  | .spStack rs => rs
  | .npConcatSlices parts => parts.map (fun p => p.1)
  | .yRef _ _ => []
  | .tRef => []
  | .blank => []

/-- Association-list lookup (first match wins). -/
def alook {K V : Type} [DecidableEq K] : List (K × V) → K → Option V
  | [], _ => none
  | (k', v) :: rest, k => if k = k' then some v else alook rest k

/-- Ordered-dictionary insertion: `d[k] = v` on a python (ordered) dict —
an existing key keeps its position and gets the new value, a new key is
appended at the end. -/
def odInsert {K V : Type} [DecidableEq K] : List (K × V) → K → V → List (K × V)
  | [], k, v => [(k, v)]
  | (k', v') :: rest, k, v =>
      if k = k' then (k, v) :: rest else (k', v') :: odInsert rest k v

/-- The `constant_symbols` ordered dict: node identity ↦ value. -/
abbrev ODV : Type := List (Symb × Value)

/-- The `variable_symbols` ordered dict: node identity ↦ generated
instruction. -/
abbrev ODE : Type := List (Symb × PyExpr)

/-- Compile-time failures of `find_symbols`: the named
`NotImplementedError` of the fallthrough branch, the bare
`NotImplementedError` of the unrecognized-concatenation branch, the
`KeyError` from `symbol._slices[child_dom]`, and a failure of the eager
`symbol.evaluate()` call on a constant node. -/
inductive CompileErr where
  | notImplementedType (kind : String)
  | notImplementedBare
  | keyError
  | constEvalFailed
  deriving DecidableEq

/-- The node kind named by a compile error, if any. -/
def CompileErr.namesKind : CompileErr → Option String
  | .notImplementedType k => some k
  | _ => none

instance {ε α : Type} [DecidableEq ε] [DecidableEq α] : DecidableEq (Except ε α) :=
  fun a b =>
  match a, b with
  | .ok x, .ok y => decidable_of_iff (x = y) (by simp)
  | .error x, .error y => decidable_of_iff (x = y) (by simp)
  | .ok _, .error _ => isFalse (by simp)
  | .error _, .ok _ => isFalse (by simp)

/-- The codegen rules table: the `symbol_str` generated for a non-constant
node from its already-resolved children references, one case per branch of
`find_symbols` (lines 62–134 of `evaluate.py`).  The `Function` rule's
constant-table side effect lives in `emitVar`; here `.call` references the
node's own identity with the constant flag set, mirroring
`id_to_python_variable(symbol.id, True)`. -/
def instrOf : Symb → Except CompileErr PyExpr
  | .const v => .error (.notImplementedType (Symb.const v).kindName)
  | .bin op a b => .ok (.binG op (cref a) (cref b))
  | .mul a b => .ok (.dispatchMul (cref a) (cref b))
  | .div a b => .ok (.dispatchDiv (cref a) (cref b))
  | .fn h a => .ok (.call (.fn h a, true) (cref a))
  | .idx i a => .ok (.index (cref a) i)
  | .un op a => .ok (.unG op (cref a))
  | .npConcat l =>
      let cv := (l.toList).map cref
      if cv.length > 1 then .ok (.npConcat cv)
      else
        match cv with
        | [r] => .ok (.ref r)
        | _ => .ok .blank
  | .spStack l => .ok (.spStack ((l.toList).map cref))
  | .domConcat l csl fsl =>
      match domTriples ((l.toList).map cref) csl fsl with
      | none => .error .keyError
      | some tr =>
          let parts := (sortByKey tr).map (fun q => (q.2.1, q.2.2.1, q.2.2.2))
          if (l.toList).length > 1 then .ok (.npConcatSlices parts)
          else
            match (l.toList).map cref with
            | [r] => .ok (.ref r)
            | _ => .ok .blank
  | .stateVector a b => .ok (.yRef a b)
  | .time => .ok .tRef
  | .concatOther _ _ => .error .notImplementedBare
  | .unsupported k _ => .error (.notImplementedType k)

/-- Emission of a non-constant node after its children have been processed:
a `Function` node first stores its function handle in `constant_symbols`
under its own identity, then the generated instruction is stored in
`variable_symbols` under the node's identity (line 136). -/
def fnTable (sym : Symb) (cs : ODV) : ODV :=
  match sym with
  | .fn hf a => odInsert cs (.fn hf a) (.funv hf)
  | _ => cs

def emitVar (s : Symb) (cs : ODV) (vs : ODE) : Except CompileErr (ODV × ODE) :=
  (instrOf s).map (fun e => (fnTable s cs, odInsert vs s e))

/-- The eager constant branch (lines 49–51): a constant-classified node is
evaluated standalone (`symbol.evaluate()`, no inputs) and stored in
`constant_symbols`; an exception escaping that evaluation aborts
compilation. -/
def emitConst (Φ : Nat → Value → Option Value) (s : Symb) (cs : ODV) (vs : ODE) :
    Except CompileErr (ODV × ODE) :=
  match dEval Φ none none s with
  | some v => .ok (odInsert cs s v, vs)
  | none => .error .constEvalFailed

mutual
/-- The linearizer, `find_symbols(symbol, constant_symbols,
variable_symbols)`: constant nodes are evaluated eagerly and stored in the
constant table; otherwise all children are processed recursively in
declaration order and then the node's generated instruction is emitted. -/
def find_symbols (Φ : Nat → Value → Option Value) :
    Symb → ODV → ODE → Except CompileErr (ODV × ODE)
  | .const v, cs, vs =>
      if (Symb.const v).is_constant then emitConst Φ (.const v) cs vs
      else emitVar (.const v) cs vs
  | .bin op a b, cs, vs =>
      if (Symb.bin op a b).is_constant then emitConst Φ (.bin op a b) cs vs
      else do
        let s₁ ← find_symbols Φ a cs vs
        let s₂ ← find_symbols Φ b s₁.1 s₁.2
        emitVar (.bin op a b) s₂.1 s₂.2
  | .mul a b, cs, vs =>
      if (Symb.mul a b).is_constant then emitConst Φ (.mul a b) cs vs
      else do
        let s₁ ← find_symbols Φ a cs vs
        let s₂ ← find_symbols Φ b s₁.1 s₁.2
        emitVar (.mul a b) s₂.1 s₂.2
  | .div a b, cs, vs =>
      if (Symb.div a b).is_constant then emitConst Φ (.div a b) cs vs
      else do
        let s₁ ← find_symbols Φ a cs vs
        let s₂ ← find_symbols Φ b s₁.1 s₁.2
        emitVar (.div a b) s₂.1 s₂.2
  | .fn h a, cs, vs =>
      if (Symb.fn h a).is_constant then emitConst Φ (.fn h a) cs vs
      else do
        let s₁ ← find_symbols Φ a cs vs
        emitVar (.fn h a) s₁.1 s₁.2
  | .idx i a, cs, vs =>
      if (Symb.idx i a).is_constant then emitConst Φ (.idx i a) cs vs
      else do
        let s₁ ← find_symbols Φ a cs vs
        emitVar (.idx i a) s₁.1 s₁.2
  | .un op a, cs, vs =>
      if (Symb.un op a).is_constant then emitConst Φ (.un op a) cs vs
      else do
        let s₁ ← find_symbols Φ a cs vs
        emitVar (.un op a) s₁.1 s₁.2
  | .npConcat l, cs, vs =>
      if (Symb.npConcat l).is_constant then emitConst Φ (.npConcat l) cs vs
      else do
        let s₁ ← find_symbols_list Φ l cs vs
        emitVar (.npConcat l) s₁.1 s₁.2
  | .spStack l, cs, vs =>
      if (Symb.spStack l).is_constant then emitConst Φ (.spStack l) cs vs
      else do
        let s₁ ← find_symbols_list Φ l cs vs
        emitVar (.spStack l) s₁.1 s₁.2
  | .domConcat l csl fsl, cs, vs =>
      if (Symb.domConcat l csl fsl).is_constant then
        emitConst Φ (.domConcat l csl fsl) cs vs
      else do
        let s₁ ← find_symbols_list Φ l cs vs
        emitVar (.domConcat l csl fsl) s₁.1 s₁.2
  | .stateVector a b, cs, vs =>
      if (Symb.stateVector a b).is_constant then emitConst Φ (.stateVector a b) cs vs
      else emitVar (.stateVector a b) cs vs
  | .time, cs, vs =>
      if (Symb.time).is_constant then emitConst Φ .time cs vs
      else emitVar .time cs vs
  | .concatOther k l, cs, vs =>
      if (Symb.concatOther k l).is_constant then emitConst Φ (.concatOther k l) cs vs
      else do
        let s₁ ← find_symbols_list Φ l cs vs
        emitVar (.concatOther k l) s₁.1 s₁.2
  | .unsupported k l, cs, vs =>
      if (Symb.unsupported k l).is_constant then emitConst Φ (.unsupported k l) cs vs
      else do
        let s₁ ← find_symbols_list Φ l cs vs
        emitVar (.unsupported k l) s₁.1 s₁.2
/-- The children loop of `find_symbols` (lines 54–55), threading both
tables left to right. -/
def find_symbols_list (Φ : Nat → Value → Option Value) :
    SymbList → ODV → ODE → Except CompileErr (ODV × ODE)
  | .nil, cs, vs => .ok (cs, vs)
  | .cons c rest, cs, vs => do
      let s₁ ← find_symbols Φ c cs vs
      find_symbols_list Φ rest s₁.1 s₁.2
end

/-! ## The executable artifact (`EvaluatorPython`) -/

/-- The runtime attribute namespace of the evaluator object: both the
`self.const_xxx` attributes set in `__init__` and the `self.var_xxx`
attributes the generated lines assign during `evaluate`. -/
abbrev Env : Type := List (Ref × Value)

/-- Execution of one generated instruction under an attribute environment:
each reference is read from the environment (`self.const_xxx` /
`self.var_xxx`), and the instruction's operator model is applied. -/
def evalPyExpr (Φ : Nat → Value → Option Value) (t : Option ℚ) (y : Option Mat)
    (env : Env) : PyExpr → Option Value
  | .ref r => alook env r
  | .binG op a b => (alook env a).bind (fun va =>
      (alook env b).bind (fun vb => binSem op va vb))
  | .dispatchMul a b => (alook env a).bind (fun va =>
      (alook env b).bind (fun vb => dispatchMulV va vb))
  | .dispatchDiv a b => (alook env a).bind (fun va =>
      (alook env b).bind (fun vb => dispatchDivV va vb))
  | .call f a =>
      match alook env f with
      | some (.funv h) => (alook env a).bind (Φ h)
      | _ => none
  | .index a i => (alook env a).bind (fun v => indexV v i)
  | .unG op a => (alook env a).bind (unSem op)
  | .npConcat rs => (omap (alook env) rs).bind vconcatV
  | .spStack rs => (omap (alook env) rs).bind vstackV
  | .npConcatSlices parts =>
      (omap (fun p => (alook env p.1).bind (fun v => valSlice v p.2.1 p.2.2)) parts).bind
        vconcatV
  | .yRef a b => yslice y a b
  | .tRef => t.map Value.scalar
  | .blank => none

/-- Execution of the generated program, line by line
(`exec(self._variable_compiled)`): each line computes its instruction and
assigns the result to the node's `self.var_xxx` attribute — an attribute
write on the evaluator object, modelled by inserting into the environment. -/
def execProg (Φ : Nat → Value → Option Value) (t : Option ℚ) (y : Option Mat) :
    Env → List (Symb × PyExpr) → Option Env
  | env, [] => some env
  | env, (s, e) :: rest =>
      (evalPyExpr Φ t y env e).bind (fun v => execProg Φ t y (odInsert env (s, false) v) rest)

/-- The compiled artifact, `EvaluatorPython`: its instance attributes
(initially the embedded constants `self.const_xxx`), the compiled
instruction program, and the result handle
`id_to_python_variable(symbol.id, symbol.is_constant())`. -/
structure Evaluator where
  attrs : Env
  prog : List (Symb × PyExpr)
  result_var : Ref
  deriving DecidableEq

/-- Construction, `EvaluatorPython.__init__`: run `find_symbols` on empty
ordered dicts (`to_python`), embed every constant as a `self.const_xxx`
attribute, store the program and the result handle.  A linearization error
propagates and no artifact is produced. -/
def compile (Φ : Nat → Value → Option Value) (sym : Symb) : Except CompileErr Evaluator :=
  (find_symbols Φ sym [] []).map (fun s =>
    { attrs := s.1.map (fun p => ((p.1, true), p.2))
      prog := s.2
      result_var := (sym, sym.is_constant) })

/-- The state argument of `evaluate`: a one-dimensional sequence or an
already-shaped matrix. -/
inductive YArg where
  | vec (l : List ℚ)
  | mat (m : Mat)
  deriving DecidableEq

/-- Lines 190–192: a one-dimensional `y` is reshaped to a single-column
matrix before the program runs; anything else is passed through. -/
def reshapeY : Option YArg → Option Mat
  | none => none
  | some (.vec l) => some (l.map (fun q => [q]))
  | some (.mat m) => some m

/-- Invocation, `EvaluatorPython.evaluate(t, y)`: reshape `y`, execute the
program over the instance attributes (the generated lines assign
`self.var_xxx` attributes, so the instance is updated), and return the
value of the result handle together with the updated instance. -/
def Evaluator.evaluate (Φ : Nat → Value → Option Value) (ev : Evaluator)
    (t : Option ℚ) (y : Option YArg) : Option (Value × Evaluator) :=
  (execProg Φ t (reshapeY y) ev.attrs ev.prog).bind (fun env =>
    (alook env ev.result_var).map (fun v => (v, { ev with attrs := env })))

/-- The value returned by `evaluate`: bare, or paired with the caller's
`known_evals` object (lines 197–201). -/
inductive EvalRet (κ : Type) where
  | val (v : Value)
  | pair (v : Value) (k : κ)
  deriving DecidableEq

/-- Invocation with the optional `known_evals` argument: the computed value
is returned bare when `known_evals` is `None`, and paired with the caller's
`known_evals` object (unchanged) otherwise. -/
def Evaluator.evaluateK {κ : Type} (Φ : Nat → Value → Option Value) (ev : Evaluator)
    (t : Option ℚ) (y : Option YArg) (known : Option κ) :
    Option (EvalRet κ × Evaluator) :=
  (ev.evaluate Φ t y).map (fun p =>
    (match known with
     | some k => .pair p.1 k
     | none => .val p.1, p.2))

/-! ## Supported graphs, reachability, first-discovery order -/

mutual
/-- Well-formedness of `DomainConcatenation` metadata: every sub-domain
named by a child's slice table has a slice in the final-output table
(`symbol._slices`), which the graph builder guarantees by constructing both
tables from the same mesh. -/
def domCovered (csl : List DomSlices) (fsl : DomSlices) : Bool :=
  csl.all (fun sl => sl.all (fun d => (domLookup fsl d.1).isSome))

/-- A graph is supported when every node's kind is among the recognized
kinds (no unrecognized node type and no unrecognized concatenation
sub-kind) and `DomainConcatenation` metadata is well-formed. -/
def Symb.supported : Symb → Bool
  | .const _ => true
  | .bin _ a b => a.supported && b.supported
  | .mul a b => a.supported && b.supported
  | .div a b => a.supported && b.supported
  | .fn _ a => a.supported
  | .idx _ a => a.supported
  | .un _ a => a.supported
  | .npConcat l => SymbList.supported l
  | .spStack l => SymbList.supported l
  | .domConcat l csl fsl => domCovered csl fsl && SymbList.supported l
  | .stateVector _ _ => true
  | .time => true
  | .concatOther _ _ => false
  | .unsupported _ _ => false
/-- All-children version of `Symb.supported`. -/
def SymbList.supported : SymbList → Bool
  | .nil => true
  | .cons c cs => c.supported && SymbList.supported cs
end

mutual
/-- The nodes `find_symbols` visits: a constant node is a leaf of the
traversal (its children are never visited), otherwise the node and all
nodes reachable through its children. -/
def reach : Symb → List Symb
  | .const v => [.const v]
  | .bin op a b => if (Symb.bin op a b).is_constant then [.bin op a b]
      else .bin op a b :: (reach a ++ reach b)
  | .mul a b => if (Symb.mul a b).is_constant then [.mul a b]
      else .mul a b :: (reach a ++ reach b)
  | .div a b => if (Symb.div a b).is_constant then [.div a b]
      else .div a b :: (reach a ++ reach b)
  | .fn h a => if (Symb.fn h a).is_constant then [.fn h a]
      else .fn h a :: reach a
  | .idx i a => if (Symb.idx i a).is_constant then [.idx i a]
      else .idx i a :: reach a
  | .un op a => if (Symb.un op a).is_constant then [.un op a]
      else .un op a :: reach a
  | .npConcat l => if (Symb.npConcat l).is_constant then [.npConcat l]
      else .npConcat l :: reachList l
  | .spStack l => if (Symb.spStack l).is_constant then [.spStack l]
      else .spStack l :: reachList l
  | .domConcat l csl fsl => if (Symb.domConcat l csl fsl).is_constant then
        [.domConcat l csl fsl]
      else .domConcat l csl fsl :: reachList l
  | .stateVector a b => [.stateVector a b]
  | .time => [.time]
  | .concatOther k l => if (Symb.concatOther k l).is_constant then [.concatOther k l]
      else .concatOther k l :: reachList l
  | .unsupported k l => if (Symb.unsupported k l).is_constant then [.unsupported k l]
      else .unsupported k l :: reachList l
/-- Reachable nodes of a children list. -/
def reachList : SymbList → List Symb
  | .nil => []
  | .cons c rest => reach c ++ reachList rest
end

/-- Append a key unless already present (ordered-dict key behaviour). -/
def fdTail (s : Symb) (seen : List Symb) : List Symb :=
  if s ∈ seen then seen else seen ++ [s]

mutual
/-- The evolution of `variable_symbols`' key sequence: a constant node adds
no key; otherwise the children contribute first (left to right) and then
the node's own identity is appended unless it is already present (python
dict assignment keeps the first position of an existing key). -/
def fdVars : Symb → List Symb → List Symb
  | .const _, seen => seen
  | .bin op a b, seen => if (Symb.bin op a b).is_constant then seen
      else fdTail (.bin op a b) (fdVars b (fdVars a seen))
  | .mul a b, seen => if (Symb.mul a b).is_constant then seen
      else fdTail (.mul a b) (fdVars b (fdVars a seen))
  | .div a b, seen => if (Symb.div a b).is_constant then seen
      else fdTail (.div a b) (fdVars b (fdVars a seen))
  | .fn h a, seen => if (Symb.fn h a).is_constant then seen
      else fdTail (.fn h a) (fdVars a seen)
  | .idx i a, seen => if (Symb.idx i a).is_constant then seen
      else fdTail (.idx i a) (fdVars a seen)
  | .un op a, seen => if (Symb.un op a).is_constant then seen
      else fdTail (.un op a) (fdVars a seen)
  | .npConcat l, seen => if (Symb.npConcat l).is_constant then seen
      else fdTail (.npConcat l) (fdVarsList l seen)
  | .spStack l, seen => if (Symb.spStack l).is_constant then seen
      else fdTail (.spStack l) (fdVarsList l seen)
  | .domConcat l csl fsl, seen => if (Symb.domConcat l csl fsl).is_constant then seen
      else fdTail (.domConcat l csl fsl) (fdVarsList l seen)
  | .stateVector a b, seen => fdTail (.stateVector a b) seen
  | .time, seen => fdTail .time seen
  | .concatOther k l, seen => if (Symb.concatOther k l).is_constant then seen
      else fdTail (.concatOther k l) (fdVarsList l seen)
  | .unsupported k l, seen => if (Symb.unsupported k l).is_constant then seen
      else fdTail (.unsupported k l) (fdVarsList l seen)
/-- Key evolution over a children list. -/
def fdVarsList : SymbList → List Symb → List Symb
  | .nil, seen => seen
  | .cons c rest, seen => fdVarsList rest (fdVars c seen)
end

/-- The keys of an ordered dict. -/
def keysOf {K V : Type} (d : List (K × V)) : List K := d.map Prod.fst


/-! ## Ordered-dictionary lemmas -/

section ODLemmas

variable {K V : Type} [DecidableEq K]

theorem mem_odInsert_self (d : List (K × V)) (k : K) (v : V) :
    (k, v) ∈ odInsert d k v := by
  induction d with
  | nil => simp [odInsert]
  | cons p rest ih =>
      obtain ⟨k', v'⟩ := p
      by_cases h : k = k' <;> simp [odInsert, h, ih]

theorem mem_of_mem_odInsert {d : List (K × V)} {k : K} {v : V} {p : K × V}
    (h : p ∈ odInsert d k v) : p = (k, v) ∨ p ∈ d := by
  induction d with
  | nil => simpa [odInsert] using h
  | cons q rest ih =>
      obtain ⟨k', v'⟩ := q
      by_cases hk : k = k'
      · rw [odInsert, if_pos hk] at h
        rcases List.mem_cons.mp h with h1 | h1
        · exact Or.inl h1
        · exact Or.inr (List.mem_cons_of_mem _ h1)
      · rw [odInsert, if_neg hk] at h
        rcases List.mem_cons.mp h with h1 | h1
        · exact Or.inr (by simp [h1])
        · rcases ih h1 with h2 | h2
          · exact Or.inl h2
          · exact Or.inr (List.mem_cons_of_mem _ h2)

theorem keysOf_odInsert_of_mem {d : List (K × V)} {k : K} (v : V)
    (h : k ∈ keysOf d) : keysOf (odInsert d k v) = keysOf d := by
  induction d with
  | nil => simp [keysOf] at h
  | cons q rest ih =>
      obtain ⟨k', v'⟩ := q
      by_cases hk : k = k'
      · rw [odInsert, if_pos hk]
        simp [keysOf, hk]
      · rw [odInsert, if_neg hk]
        have h2 : k ∈ keysOf rest := by
          rw [keysOf, List.map_cons] at h
          rcases List.mem_cons.mp h with h1 | h1
          · exact absurd h1 hk
          · exact h1
        simp only [keysOf, List.map_cons]
        rw [show List.map Prod.fst (odInsert rest k v) = keysOf (odInsert rest k v) from rfl,
          ih h2]
        rfl

theorem keysOf_odInsert_of_not_mem {d : List (K × V)} {k : K} (v : V)
    (h : k ∉ keysOf d) : keysOf (odInsert d k v) = keysOf d ++ [k] := by
  induction d with
  | nil => simp [odInsert, keysOf]
  | cons q rest ih =>
      obtain ⟨k', v'⟩ := q
      have h1 : k ≠ k' ∧ k ∉ keysOf rest := by
        constructor
        · intro hk
          exact h (by simp [keysOf, hk])
        · intro hk
          exact h (by simpa [keysOf] using Or.inr (by simpa [keysOf] using hk))
      rw [odInsert, if_neg h1.1]
      simp only [keysOf, List.map_cons]
      rw [show List.map Prod.fst (odInsert rest k v) = keysOf (odInsert rest k v) from rfl,
        ih h1.2]
      rfl

theorem mem_keysOf_odInsert {d : List (K × V)} {k k' : K} {v : V} :
    k' ∈ keysOf (odInsert d k v) ↔ k' ∈ keysOf d ∨ k' = k := by
  by_cases h : k ∈ keysOf d
  · rw [keysOf_odInsert_of_mem v h]
    constructor
    · exact Or.inl
    · rintro (h' | rfl)
      · exact h'
      · exact h
  · rw [keysOf_odInsert_of_not_mem v h]
    simp

theorem nodup_keysOf_odInsert {d : List (K × V)} {k : K} (v : V)
    (h : (keysOf d).Nodup) : (keysOf (odInsert d k v)).Nodup := by
  by_cases hm : k ∈ keysOf d
  · rwa [keysOf_odInsert_of_mem v hm]
  · rw [keysOf_odInsert_of_not_mem v hm]
    rw [List.nodup_append]
    exact ⟨h, List.nodup_singleton k, by simpa using fun hk => hm hk⟩

theorem odInsert_of_mem {d : List (K × V)} {k : K} {v : V}
    (hnd : (keysOf d).Nodup) (h : (k, v) ∈ d) : odInsert d k v = d := by
  induction d with
  | nil => simp at h
  | cons q rest ih =>
      obtain ⟨k', v'⟩ := q
      have hnd' : k' ∉ keysOf rest ∧ (keysOf rest).Nodup := by
        simpa [keysOf] using hnd
      rcases List.mem_cons.mp h with h' | h'
      · obtain ⟨rfl, rfl⟩ := Prod.mk.inj h'
        simp [odInsert]
      · have hk : k ≠ k' := by
          rintro rfl
          exact hnd'.1 (by simpa [keysOf] using List.mem_map_of_mem Prod.fst h')
        rw [odInsert, if_neg hk, ih hnd'.2 h']

theorem alook_odInsert_self (d : List (K × V)) (k : K) (v : V) :
    alook (odInsert d k v) k = some v := by
  induction d with
  | nil => simp [odInsert, alook]
  | cons q rest ih =>
      obtain ⟨k', v'⟩ := q
      by_cases hk : k = k' <;> simp [odInsert, hk, alook, ih]

theorem alook_odInsert_of_ne {d : List (K × V)} {k k' : K} (v : V) (h : k' ≠ k) :
    alook (odInsert d k v) k' = alook d k' := by
  induction d with
  | nil => simp [odInsert, alook, h]
  | cons q rest ih =>
      obtain ⟨k'', v''⟩ := q
      by_cases hk : k = k''
      · subst hk
        simp [odInsert, alook, h]
      · by_cases hk' : k' = k'' <;> simp [odInsert, hk, alook, hk', ih]

theorem alook_isSome_of_mem_keys {d : List (K × V)} {k : K}
    (h : k ∈ keysOf d) : (alook d k).isSome := by
  induction d with
  | nil => simp [keysOf] at h
  | cons q rest ih =>
      obtain ⟨k', v'⟩ := q
      by_cases hk : k = k'
      · simp [alook, hk]
      · have h2 : k ∈ keysOf rest := by
          rw [keysOf, List.map_cons] at h
          rcases List.mem_cons.mp h with h1 | h1
          · exact absurd h1 hk
          · exact h1
        simpa [alook, hk] using ih h2

theorem mem_of_alook_eq_some {d : List (K × V)} {k : K} {v : V}
    (h : alook d k = some v) : (k, v) ∈ d := by
  induction d with
  | nil => simp [alook] at h
  | cons q rest ih =>
      obtain ⟨k', v'⟩ := q
      by_cases hk : k = k'
      · subst hk
        rw [alook, if_pos rfl] at h
        obtain rfl := Option.some.inj h
        simp
      · rw [alook, if_neg hk] at h
        exact List.mem_cons_of_mem _ (ih h)

theorem mem_keysOf_of_alook_isSome {d : List (K × V)} {k : K}
    (h : (alook d k).isSome) : k ∈ keysOf d := by
  obtain ⟨v, hv⟩ := Option.isSome_iff_exists.mp h
  have := mem_of_alook_eq_some hv
  simpa [keysOf] using List.mem_map_of_mem Prod.fst this

end ODLemmas

/-! ## Lemmas about `omap` -/

section OmapLemmas

variable {α β γ : Type}

theorem omap_congr {f g : α → Option β} :
    ∀ {l : List α}, (∀ a ∈ l, f a = g a) → omap f l = omap g l
  | [], _ => rfl
  | a :: l, h => by
      simp only [omap, h a (List.mem_cons_self a l),
        omap_congr (fun x hx => h x (List.mem_cons_of_mem a hx))]

theorem omap_map (f : β → Option γ) (g : α → β) :
    ∀ l : List α, omap f (l.map g) = omap (fun a => f (g a)) l
  | [] => rfl
  | a :: l => by simp only [List.map_cons, omap, omap_map f g l]

theorem forall₂_of_omap_eq_some {f : α → Option β} :
    ∀ {l : List α} {bs : List β}, omap f l = some bs →
      List.Forall₂ (fun a b => f a = some b) l bs
  | [], bs, h => by
      simp only [omap, Option.some.injEq] at h
      subst h
      exact List.Forall₂.nil
  | a :: l, bs, h => by
      simp only [omap] at h
      cases hfa : f a with
      | none => simp [hfa] at h
      | some b =>
          simp only [hfa, Option.bind_eq_bind, Option.some_bind] at h
          cases hrest : omap f l with
          | none => simp [hrest] at h
          | some bs' =>
              rw [hrest] at h
              simp at h
              subst h
              exact List.Forall₂.cons hfa (forall₂_of_omap_eq_some hrest)

theorem omap_eq_some_of_forall₂ {f : α → Option β} :
    ∀ {l : List α} {bs : List β}, List.Forall₂ (fun a b => f a = some b) l bs →
      omap f l = some bs
  | [], [], _ => rfl
  | a :: l, b :: bs, h => by
      rcases h with _ | ⟨hab, hrest⟩
      simp [omap, hab, omap_eq_some_of_forall₂ hrest]

theorem length_of_omap_eq_some {f : α → Option β} {l : List α} {bs : List β}
    (h : omap f l = some bs) : bs.length = l.length :=
  (forall₂_of_omap_eq_some h).length_eq.symm

end OmapLemmas

/-! ## Lemmas about the stable key sort -/

section SortLemmas

variable {β γ : Type}

theorem insSorted_perm (x : Nat × β) :
    ∀ l : List (Nat × β), List.Perm (insSorted x l) (x :: l)
  | [] => List.Perm.refl _
  | y :: ys => by
      by_cases h : x.1 ≤ y.1
      · simp [insSorted, h]
      · simp only [insSorted, if_neg h]
        exact ((insSorted_perm x ys).cons y).trans (List.Perm.swap x y ys)

theorem sortByKey_perm : ∀ l : List (Nat × β), List.Perm (sortByKey l) l
  | [] => List.Perm.refl _
  | x :: xs => (insSorted_perm x (sortByKey xs)).trans ((sortByKey_perm xs).cons x)

theorem pairwise_insSorted {x : Nat × β} {l : List (Nat × β)}
    (h : l.Pairwise (fun a b => a.1 ≤ b.1)) :
    (insSorted x l).Pairwise (fun a b => a.1 ≤ b.1) := by
  induction l with
  | nil => simp [insSorted]
  | cons y ys ih =>
      by_cases hxy : x.1 ≤ y.1
      · simp only [insSorted, if_pos hxy]
        refine List.Pairwise.cons ?_ h
        intro z hz
        rcases List.mem_cons.mp hz with rfl | hz
        · exact hxy
        · exact le_trans hxy (List.rel_of_pairwise_cons h hz)
      · simp only [insSorted, if_neg hxy]
        rcases List.pairwise_cons.mp h with ⟨hy, hys⟩
        refine List.Pairwise.cons ?_ (ih hys)
        intro z hz
        have := (insSorted_perm x ys).mem_iff.mp hz
        rcases List.mem_cons.mp this with rfl | hz'
        · omega
        · exact hy z hz'

theorem pairwise_sortByKey :
    ∀ l : List (Nat × β), (sortByKey l).Pairwise (fun a b => a.1 ≤ b.1)
  | [] => List.Pairwise.nil
  | x :: xs => pairwise_insSorted (pairwise_sortByKey xs)

theorem insSorted_forall₂ {R : Nat × β → Nat × γ → Prop}
    (hR : ∀ p q, R p q → p.1 = q.1) {x : Nat × β} {x' : Nat × γ}
    (hx : R x x') :
    ∀ {l : List (Nat × β)} {l' : List (Nat × γ)}, List.Forall₂ R l l' →
      List.Forall₂ R (insSorted x l) (insSorted x' l')
  | [], [], _ => List.Forall₂.cons hx List.Forall₂.nil
  | y :: ys, y' :: ys', h => by
      rcases h with _ | ⟨hy, hrest⟩
      have hkey : x.1 = x'.1 := hR _ _ hx
      have hkey' : y.1 = y'.1 := hR _ _ hy
      by_cases hle : x.1 ≤ y.1
      · have hle' : x'.1 ≤ y'.1 := by omega
        simp only [insSorted, if_pos hle, if_pos hle']
        exact List.Forall₂.cons hx (List.Forall₂.cons hy hrest)
      · have hle' : ¬ x'.1 ≤ y'.1 := by omega
        simp only [insSorted, if_neg hle, if_neg hle']
        exact List.Forall₂.cons hy (insSorted_forall₂ hR hx hrest)

theorem sortByKey_forall₂ {R : Nat × β → Nat × γ → Prop}
    (hR : ∀ p q, R p q → p.1 = q.1) :
    ∀ {l : List (Nat × β)} {l' : List (Nat × γ)}, List.Forall₂ R l l' →
      List.Forall₂ R (sortByKey l) (sortByKey l')
  | [], [], _ => List.Forall₂.nil
  | x :: xs, x' :: xs', h => by
      rcases h with _ | ⟨hx, hrest⟩
      exact insSorted_forall₂ hR hx (sortByKey_forall₂ hR hrest)

end SortLemmas

/-! ## Bridges between `SymbList` and `List` -/

theorem dEvalList_eq_omap (Φ : Nat → Value → Option Value) (t : Option ℚ) (y : Option Mat) :
    ∀ l : SymbList, dEvalList Φ t y l = omap (dEval Φ t y) l.toList
  | .nil => rfl
  | .cons c rest => by
      rw [dEvalList, SymbList.toList, omap, dEvalList_eq_omap Φ t y rest]

theorem symbList_containsTY_eq :
    ∀ l : SymbList, SymbList.containsTY l = l.toList.any Symb.containsTY
  | .nil => rfl
  | .cons c rest => by
      rw [SymbList.containsTY, SymbList.toList, List.any_cons, symbList_containsTY_eq rest]

theorem symbList_supported_eq :
    ∀ l : SymbList, SymbList.supported l = l.toList.all Symb.supported
  | .nil => rfl
  | .cons c rest => by
      rw [SymbList.supported, SymbList.toList, List.all_cons, symbList_supported_eq rest]

/-! ## Constant subtrees evaluate independently of the inputs -/

mutual
/-- A subtree with no `StateVector`/`Time` leaf evaluates to the same result
whatever `t`, `y` are supplied — in particular the eager standalone
`symbol.evaluate()` of a constant node agrees with its evaluation inside a
full-tree `evaluate(t, y)`. -/
theorem dEval_indep (Φ : Nat → Value → Option Value) (t t' : Option ℚ) (y y' : Option Mat) :
    ∀ s : Symb, s.containsTY = false → dEval Φ t y s = dEval Φ t' y' s
  | .const v, _ => rfl
  | .bin op a b, h => by
      rw [Symb.containsTY] at h
      simp only [Bool.or_eq_false_iff] at h
      rw [dEval, dEval, dEval_indep Φ t t' y y' a h.1, dEval_indep Φ t t' y y' b h.2]
  | .mul a b, h => by
      rw [Symb.containsTY] at h
      simp only [Bool.or_eq_false_iff] at h
      rw [dEval, dEval, dEval_indep Φ t t' y y' a h.1, dEval_indep Φ t t' y y' b h.2]
  | .div a b, h => by
      rw [Symb.containsTY] at h
      simp only [Bool.or_eq_false_iff] at h
      rw [dEval, dEval, dEval_indep Φ t t' y y' a h.1, dEval_indep Φ t t' y y' b h.2]
  | .fn hf a, h => by
      rw [Symb.containsTY] at h
      rw [dEval, dEval, dEval_indep Φ t t' y y' a h]
  | .idx i a, h => by
      rw [Symb.containsTY] at h
      rw [dEval, dEval, dEval_indep Φ t t' y y' a h]
  | .un op a, h => by
      rw [Symb.containsTY] at h
      rw [dEval, dEval, dEval_indep Φ t t' y y' a h]
  | .npConcat l, h => by
      rw [Symb.containsTY] at h
      rw [dEval, dEval, dEvalList_indep Φ t t' y y' l h]
  | .spStack l, h => by
      rw [Symb.containsTY] at h
      rw [dEval, dEval, dEvalList_indep Φ t t' y y' l h]
  | .domConcat l csl fsl, h => by
      rw [Symb.containsTY] at h
      rw [dEval, dEval, dEvalList_indep Φ t t' y y' l h]
  | .stateVector a b, h => by
      rw [Symb.containsTY] at h
      exact absurd h (by simp)
  | .time, h => by
      rw [Symb.containsTY] at h
      exact absurd h (by simp)
  | .concatOther k l, _ => rfl
  | .unsupported k l, _ => rfl
  termination_by s => sizeOf s
/-- List version of `dEval_indep`. -/
theorem dEvalList_indep (Φ : Nat → Value → Option Value) (t t' : Option ℚ) (y y' : Option Mat) :
    ∀ l : SymbList, SymbList.containsTY l = false → dEvalList Φ t y l = dEvalList Φ t' y' l
  | .nil, _ => rfl
  | .cons c rest, h => by
      rw [SymbList.containsTY] at h
      simp only [Bool.or_eq_false_iff] at h
      rw [dEvalList, dEvalList, dEval_indep Φ t t' y y' c h.1,
        dEvalList_indep Φ t t' y y' rest h.2]
  termination_by l => sizeOf l
end

/-- For a constant-classified node, full-tree evaluation with any inputs
agrees with the standalone `symbol.evaluate()`. -/
theorem dEval_of_is_constant {s : Symb} (Φ : Nat → Value → Option Value)
    (t : Option ℚ) (y : Option Mat) (h : s.is_constant = true) :
    dEval Φ t y s = dEval Φ none none s := by
  rw [Symb.is_constant, Bool.not_eq_true'] at h
  exact dEval_indep Φ t none y none s h

/-! ## The compile-time invariant -/

/-- Correctness of a `constant_symbols` entry: either the node is constant
and the entry is its standalone evaluation, or the node is a non-constant
`Function` and the entry is its function handle (stored by the two-step
`Function` rule). -/
def csEntryOK (Φ : Nat → Value → Option Value) (s : Symb) (v : Value) : Prop :=
  (s.is_constant = true ∧ dEval Φ none none s = some v) ∨
  (s.is_constant = false ∧ ∃ h a, s = .fn h a ∧ v = .funv h)

/-- Correctness of a `variable_symbols` entry: the node is non-constant,
the stored instruction is the node's generated instruction, and the node
evaluates successfully on the inputs under consideration. -/
def vsEntryOK (Φ : Nat → Value → Option Value) (t : Option ℚ) (y : Option Mat)
    (s : Symb) (e : PyExpr) : Prop :=
  s.is_constant = false ∧ instrOf s = .ok e ∧ (dEval Φ t y s).isSome

/-- What a reference must be bound to: a constant reference to a
constant-table entry, a variable reference to the node's value. -/
def RefOK (Φ : Nat → Value → Option Value) (t : Option ℚ) (y : Option Mat) :
    Ref → Value → Prop
  | (s, true), v => csEntryOK Φ s v
  | (s, false), v => dEval Φ t y s = some v

/-- An attribute environment is correct when every binding it holds is the
meaning of its reference. -/
def EnvOK (Φ : Nat → Value → Option Value) (t : Option ℚ) (y : Option Mat)
    (env : Env) : Prop :=
  ∀ r v, alook env r = some v → RefOK Φ t y r v

/-- The constant references provided by a constant table. -/
def constRefs (cs : ODV) : List Ref := (keysOf cs).map (fun k => (k, true))

/-- The variable references provided by an instruction program. -/
def varKeys (vs : List (Symb × PyExpr)) : List Ref := vs.map (fun p => (p.1, false))

/-- Strict dependency order: every instruction reads only references
available before it — initially `avail`, then each emitted line adds its
own variable reference. -/
def DepOK (avail : List Ref) : List (Symb × PyExpr) → Prop
  | [] => True
  | (s, e) :: rest => (∀ r ∈ e.refs, r ∈ avail) ∧ DepOK ((s, false) :: avail) rest

/-- The invariant `find_symbols` preserves on its two tables. -/
def TablesOK (Φ : Nat → Value → Option Value) (t : Option ℚ) (y : Option Mat)
    (cs : ODV) (vs : ODE) : Prop :=
  (∀ p ∈ cs, csEntryOK Φ p.1 p.2) ∧
  (∀ p ∈ vs, vsEntryOK Φ t y p.1 p.2) ∧
  (keysOf cs).Nodup ∧ (keysOf vs).Nodup ∧
  DepOK (constRefs cs) vs

theorem exists_mem_of_mem_keysOf {K V : Type} {d : List (K × V)} {k : K}
    (h : k ∈ keysOf d) : ∃ v, (k, v) ∈ d := by
  rw [keysOf] at h
  obtain ⟨⟨k', v⟩, hm, rfl⟩ := List.mem_map.mp h
  exact ⟨v, hm⟩

theorem DepOK_mono {avail avail' : List Ref} (hsub : ∀ r ∈ avail, r ∈ avail') :
    ∀ {vs : List (Symb × PyExpr)}, DepOK avail vs → DepOK avail' vs
  | [], _ => trivial
  | (s, e) :: rest, h => by
      rw [DepOK] at h ⊢
      refine ⟨fun r hr => hsub r (h.1 r hr), ?_⟩
      refine DepOK_mono ?_ h.2
      intro r hr
      rcases List.mem_cons.mp hr with rfl | hr
      · exact List.mem_cons_self _ _
      · exact List.mem_cons_of_mem _ (hsub r hr)

theorem DepOK_append_one {avail : List Ref} {e : PyExpr} {s : Symb} :
    ∀ {vs : List (Symb × PyExpr)}, DepOK avail vs →
      (∀ r ∈ e.refs, r ∈ avail ∨ r ∈ varKeys vs) →
      DepOK avail (vs ++ [(s, e)])
  | [], _, he => by
      rw [List.nil_append, DepOK]
      refine ⟨fun r hr => ?_, trivial⟩
      rcases he r hr with h | h
      · exact h
      · simp [varKeys] at h
  | (s', e') :: rest, h, he => by
      rw [DepOK] at h
      rw [List.cons_append, DepOK]
      refine ⟨h.1, DepOK_append_one h.2 ?_⟩
      intro r hr
      rcases he r hr with h' | h'
      · exact Or.inl (List.mem_cons_of_mem _ h')
      · rw [varKeys, List.map_cons] at h'
        rcases List.mem_cons.mp h' with rfl | h'
        · exact Or.inl (List.mem_cons_self _ _)
        · exact Or.inr h'

/-! ## Parallel-evaluation lemmas (`List.Forall₂` utilities) -/

section Forall₂Lemmas

variable {α β γ α₁ α₂ β₁ β₂ : Type}

theorem forall₂_eq_self : ∀ l : List α, List.Forall₂ Eq l l
  | [] => List.Forall₂.nil
  | a :: l => List.Forall₂.cons rfl (forall₂_eq_self l)

theorem eq_of_forall₂_eq : ∀ {l₁ l₂ : List α}, List.Forall₂ Eq l₁ l₂ → l₁ = l₂
  | [], [], _ => rfl
  | a :: l, b :: m, h => by
      rcases h with _ | ⟨hab, hrest⟩
      rw [hab, eq_of_forall₂_eq hrest]

theorem forall₂_imp_mem {P Q : α → β → Prop} :
    ∀ {l₁ : List α} {l₂ : List β}, List.Forall₂ P l₁ l₂ →
      (∀ a b, a ∈ l₁ → b ∈ l₂ → P a b → Q a b) → List.Forall₂ Q l₁ l₂
  | [], [], _, _ => List.Forall₂.nil
  | a :: l, b :: m, h, himp => by
      rcases h with _ | ⟨hab, hrest⟩
      refine List.Forall₂.cons
        (himp a b (List.mem_cons_self a l) (List.mem_cons_self b m) hab)
        (forall₂_imp_mem hrest ?_)
      intro x z hx hz hxz
      exact himp x z (List.mem_cons_of_mem a hx) (List.mem_cons_of_mem b hz) hxz

theorem forall₂_zip_same {P : α₁ → α₂ → Prop} :
    ∀ {l₁ : List α₁} {l₂ : List α₂}, List.Forall₂ P l₁ l₂ → ∀ cs : List γ,
      List.Forall₂ (fun p q => P p.1 q.1 ∧ p.2 = q.2) (l₁.zip cs) (l₂.zip cs)
  | [], [], _, _ => by simp
  | a :: l, b :: m, h, cs => by
      rcases h with _ | ⟨hab, hrest⟩
      cases cs with
      | nil => simp
      | cons c cs' =>
          exact List.Forall₂.cons ⟨hab, rfl⟩ (forall₂_zip_same hrest cs')

theorem forall₂_flatten {Q : β₁ → β₂ → Prop} :
    ∀ {L₁ : List (List β₁)} {L₂ : List (List β₂)},
      List.Forall₂ (List.Forall₂ Q) L₁ L₂ → List.Forall₂ Q L₁.flatten L₂.flatten
  | [], [], _ => by simpa using List.Forall₂.nil
  | l :: L, m :: M, h => by
      rcases h with _ | ⟨hlm, hrest⟩
      simpa using List.rel_append hlm (forall₂_flatten hrest)

theorem omap_forall₂ {P : α₁ → α₂ → Prop} {Q : β₁ → β₂ → Prop}
    {f₁ : α₁ → Option β₁} {f₂ : α₂ → Option β₂} :
    ∀ {l₁ : List α₁} {l₂ : List α₂}, List.Forall₂ P l₁ l₂ →
      (∀ a₁ a₂, a₁ ∈ l₁ → a₂ ∈ l₂ → P a₁ a₂ → ∀ b₁, f₁ a₁ = some b₁ →
        ∃ b₂, f₂ a₂ = some b₂ ∧ Q b₁ b₂) →
      ∀ {bs₁ : List β₁}, omap f₁ l₁ = some bs₁ →
        ∃ bs₂, omap f₂ l₂ = some bs₂ ∧ List.Forall₂ Q bs₁ bs₂
  | [], [], _, _, bs₁, h => by
      rw [omap] at h
      obtain rfl := Option.some.inj h
      exact ⟨[], rfl, List.Forall₂.nil⟩
  | a :: l, b :: m, hP, hf, bs₁, h => by
      rcases hP with _ | ⟨hab, hrest⟩
      rw [omap] at h
      rcases Option.bind_eq_some.mp h with ⟨v, hv, h2⟩
      rcases Option.map_eq_some'.mp h2 with ⟨vs, hvs, rfl⟩
      obtain ⟨w, hw, hQ⟩ := hf a b (List.mem_cons_self a l) (List.mem_cons_self b m) hab v hv
      obtain ⟨ws, hws, hQs⟩ := omap_forall₂ hrest
        (fun x z hx hz hxz => hf x z (List.mem_cons_of_mem a hx) (List.mem_cons_of_mem b hz) hxz)
        hvs
      exact ⟨w :: ws, by rw [omap, hw, hws]; rfl, List.Forall₂.cons hQ hQs⟩

end Forall₂Lemmas

/-- Parallel form of `domTriples`: related child payloads produce related
triples (same final starts, same slice bounds, related payloads). -/
theorem domTriples_forall₂ {α β : Type} {P : α → β → Prop} {items₁ : List α}
    {items₂ : List β} (hP : List.Forall₂ P items₁ items₂) (csl : List DomSlices)
    (fsl : DomSlices) {tr₁ : List (Nat × α × Nat × Nat)}
    (h₁ : domTriples items₁ csl fsl = some tr₁) :
    ∃ tr₂, domTriples items₂ csl fsl = some tr₂ ∧
      List.Forall₂ (fun p q => p.1 = q.1 ∧ P p.2.1 q.2.1 ∧ p.2.2 = q.2.2) tr₁ tr₂ := by
  rw [domTriples] at h₁
  rcases Option.map_eq_some'.mp h₁ with ⟨L₁, hL₁, rfl⟩
  have hf : ∀ p q, p ∈ items₁.zip csl → q ∈ items₂.zip csl →
      (P p.1 q.1 ∧ p.2 = q.2) →
      ∀ ts, omap (fun sl => (domLookup fsl sl.1).map
          (fun fs => (fs.1, p.1, sl.2.1, sl.2.2))) p.2 = some ts →
        ∃ ts', omap (fun sl => (domLookup fsl sl.1).map
            (fun fs => (fs.1, q.1, sl.2.1, sl.2.2))) q.2 = some ts' ∧
          List.Forall₂ (fun u u' => u.1 = u'.1 ∧ P u.2.1 u'.2.1 ∧ u.2.2 = u'.2.2) ts ts' := by
    rintro ⟨a, sl⟩ ⟨b, sl'⟩ _ _ ⟨hab, hsl⟩ ts hts
    obtain rfl : sl = sl' := hsl
    refine omap_forall₂ (forall₂_eq_self sl) ?_ hts
    rintro x z _ _ rfl t₁ ht₁
    rcases Option.map_eq_some'.mp ht₁ with ⟨fs, hfs, rfl⟩
    exact ⟨(fs.1, b, x.2.1, x.2.2), by simp [hfs], rfl, hab, rfl⟩
  obtain ⟨L₂, hL₂, hQ⟩ := omap_forall₂ (forall₂_zip_same hP csl) hf hL₁
  refine ⟨L₂.flatten, ?_, forall₂_flatten hQ⟩
  rw [domTriples, hL₂]
  rfl

/-! ## Correct execution of a single instruction -/

/-- A bound child reference holds exactly the child's direct value: a
variable reference by `EnvOK`, a constant reference by `EnvOK` plus the
input-independence of constant subtrees. -/
theorem alook_cref {Φ : Nat → Value → Option Value} {t : Option ℚ} {y : Option Mat}
    {env : Env} (henv : EnvOK Φ t y env) {c : Symb} {w : Value}
    (hb : (alook env (cref c)).isSome) (hc : dEval Φ t y c = some w) :
    alook env (cref c) = some w := by
  obtain ⟨v, hv⟩ := Option.isSome_iff_exists.mp hb
  rw [cref] at hv ⊢
  by_cases hcon : c.is_constant = true
  · rw [hcon] at hv ⊢
    have hrv := henv _ _ hv
    simp only [RefOK] at hrv
    rcases hrv with ⟨_, hval⟩ | ⟨hfalse, _⟩
    · rw [dEval_of_is_constant Φ t y hcon] at hc
      rw [hval] at hc
      rw [hv, Option.some.inj hc]
    · rw [hcon] at hfalse
      exact absurd hfalse (by simp)
  · have hconf : c.is_constant = false := by simpa using hcon
    rw [hconf] at hv ⊢
    have hrv := henv _ _ hv
    simp only [RefOK] at hrv
    rw [hrv] at hc
    rw [hv, Option.some.inj hc]

/-- List version of `alook_cref`. -/
theorem alook_crefs {Φ : Nat → Value → Option Value} {t : Option ℚ} {y : Option Mat}
    {env : Env} (henv : EnvOK Φ t y env) :
    ∀ {l : List Symb} {ws : List Value},
      (∀ c ∈ l, (alook env (cref c)).isSome) →
      omap (dEval Φ t y) l = some ws →
      omap (fun c => alook env (cref c)) l = some ws
  | [], ws, _, h => h
  | c :: l, ws, hb, h => by
      rw [omap] at h ⊢
      rcases Option.bind_eq_some.mp h with ⟨v, hv, h2⟩
      rcases Option.map_eq_some'.mp h2 with ⟨vs, hvs, rfl⟩
      rw [alook_cref henv (hb c (List.mem_cons_self c l)) hv,
        alook_crefs henv (fun x hx => hb x (List.mem_cons_of_mem c hx)) hvs]
      rfl

/-- A one-element `np.concatenate` tuple returns the (necessarily dense)
argument unchanged. -/
theorem vconcatV_singleton {v w : Value} (h : vconcatV [v] = some w) : w = v := by
  cases v with
  | scalar q => simp [vconcatV, omap] at h
  | arr sp m =>
      cases sp
      · simp only [vconcatV, omap] at h
        simp at h
        exact h.symm
      · simp [vconcatV, omap] at h
  | funv hh => simp [vconcatV, omap] at h

/-- Correct execution of one generated instruction: if a non-constant
node's instruction has all its references bound in a correct environment,
executing it yields exactly the node's direct evaluation (assumed to
succeed). -/
theorem evalInstr_correct (Φ : Nat → Value → Option Value) (t : Option ℚ)
    (y : Option Mat) {s : Symb} {e : PyExpr} {env : Env} {w : Value}
    (he : instrOf s = .ok e) (hnc : s.is_constant = false)
    (hw : dEval Φ t y s = some w) (henv : EnvOK Φ t y env)
    (hrefs : ∀ r ∈ e.refs, (alook env r).isSome) :
    evalPyExpr Φ t y env e = some w := by
  cases s with
  | const v => simp [instrOf] at he
  | bin op a b =>
      simp only [instrOf, Except.ok.injEq] at he
      subst he
      rw [dEval] at hw
      rcases Option.bind_eq_some.mp hw with ⟨va, hva, hw2⟩
      rcases Option.bind_eq_some.mp hw2 with ⟨vb, hvb, hw3⟩
      have hba := hrefs (cref a) (by simp [PyExpr.refs])
      have hbb := hrefs (cref b) (by simp [PyExpr.refs])
      rw [evalPyExpr, alook_cref henv hba hva, alook_cref henv hbb hvb]
      simpa using hw3
  | mul a b =>
      simp only [instrOf, Except.ok.injEq] at he
      subst he
      rw [dEval] at hw
      rcases Option.bind_eq_some.mp hw with ⟨va, hva, hw2⟩
      rcases Option.bind_eq_some.mp hw2 with ⟨vb, hvb, hw3⟩
      have hba := hrefs (cref a) (by simp [PyExpr.refs])
      have hbb := hrefs (cref b) (by simp [PyExpr.refs])
      rw [evalPyExpr, alook_cref henv hba hva, alook_cref henv hbb hvb]
      simpa using hw3
  | div a b =>
      simp only [instrOf, Except.ok.injEq] at he
      subst he
      rw [dEval] at hw
      rcases Option.bind_eq_some.mp hw with ⟨va, hva, hw2⟩
      rcases Option.bind_eq_some.mp hw2 with ⟨vb, hvb, hw3⟩
      have hba := hrefs (cref a) (by simp [PyExpr.refs])
      have hbb := hrefs (cref b) (by simp [PyExpr.refs])
      rw [evalPyExpr, alook_cref henv hba hva, alook_cref henv hbb hvb]
      simpa using hw3
  | fn hf a =>
      simp only [instrOf, Except.ok.injEq] at he
      subst he
      rw [dEval] at hw
      rcases Option.bind_eq_some.mp hw with ⟨va, hva, hw2⟩
      have hbf := hrefs (Symb.fn hf a, true) (by simp [PyExpr.refs])
      have hba := hrefs (cref a) (by simp [PyExpr.refs])
      obtain ⟨v, hv⟩ := Option.isSome_iff_exists.mp hbf
      have hrv := henv _ _ hv
      simp only [RefOK] at hrv
      rcases hrv with ⟨hcon, _⟩ | ⟨_, h', a', heq, rfl⟩
      · rw [hnc] at hcon
        exact absurd hcon (by simp)
      · have hh : h' = hf := by
          have := heq
          simp only [Symb.fn.injEq] at this
          exact this.1.symm
        subst hh
        rw [evalPyExpr, hv, alook_cref henv hba hva]
        simpa using hw2
  | idx i a =>
      simp only [instrOf, Except.ok.injEq] at he
      subst he
      rw [dEval] at hw
      rcases Option.bind_eq_some.mp hw with ⟨va, hva, hw2⟩
      have hba := hrefs (cref a) (by simp [PyExpr.refs])
      rw [evalPyExpr, alook_cref henv hba hva]
      simpa using hw2
  | un op a =>
      simp only [instrOf, Except.ok.injEq] at he
      subst he
      rw [dEval] at hw
      rcases Option.bind_eq_some.mp hw with ⟨va, hva, hw2⟩
      have hba := hrefs (cref a) (by simp [PyExpr.refs])
      rw [evalPyExpr, alook_cref henv hba hva]
      simpa using hw2
  | stateVector a b =>
      simp only [instrOf, Except.ok.injEq] at he
      subst he
      rw [dEval] at hw
      rw [evalPyExpr]
      exact hw
  | time =>
      simp only [instrOf, Except.ok.injEq] at he
      subst he
      rw [dEval] at hw
      rw [evalPyExpr]
      exact hw
  | concatOther k l => simp [instrOf] at he
  | unsupported k l => simp [instrOf] at he
  | spStack l =>
      simp only [instrOf, Except.ok.injEq] at he
      subst he
      rw [dEval, dEvalList_eq_omap] at hw
      rcases Option.bind_eq_some.mp hw with ⟨vals, hvals, hst⟩
      rw [evalPyExpr, omap_map]
      rw [alook_crefs henv (fun c hc => hrefs (cref c)
        (by simpa [PyExpr.refs] using List.mem_map_of_mem cref hc)) hvals]
      simpa using hst
  | npConcat l =>
      rcases hlt : l.toList with _ | ⟨c, rest⟩
      · rw [dEval, dEvalList_eq_omap, hlt] at hw
        simp [omap, vconcatV] at hw
      · rcases rest with _ | ⟨c₂, rest₂⟩
        · have h1 : ¬ (((l.toList).map cref).length > 1) := by rw [hlt]; simp
          simp only [instrOf] at he
          rw [if_neg h1, hlt] at he
          simp only [List.map_cons, List.map_nil] at he
          obtain rfl := Except.ok.inj he
          rw [dEval, dEvalList_eq_omap, hlt] at hw
          rcases Option.bind_eq_some.mp hw with ⟨vals, hvals, hcc⟩
          rw [omap] at hvals
          rcases Option.bind_eq_some.mp hvals with ⟨vc, hvc, h2⟩
          rcases Option.map_eq_some'.mp h2 with ⟨vs0, hvs0, rfl⟩
          rw [omap] at hvs0
          obtain rfl := Option.some.inj hvs0
          have hba := hrefs (cref c) (by simp [PyExpr.refs])
          rw [evalPyExpr, alook_cref henv hba hvc, vconcatV_singleton hcc]
        · have h1 : ((l.toList).map cref).length > 1 := by rw [hlt]; simp
          simp only [instrOf] at he
          rw [if_pos h1] at he
          obtain rfl := Except.ok.inj he
          rw [dEval, dEvalList_eq_omap] at hw
          rcases Option.bind_eq_some.mp hw with ⟨vals, hvals, hcc⟩
          rw [evalPyExpr, omap_map]
          rw [alook_crefs henv (fun c0 hc0 => hrefs (cref c0)
            (by simpa [PyExpr.refs] using List.mem_map_of_mem cref hc0)) hvals]
          simpa using hcc
  | domConcat l csl fsl =>
      rcases hdt : domTriples ((l.toList).map cref) csl fsl with _ | tr
      · simp [instrOf, hdt] at he
      · rcases hlt : l.toList with _ | ⟨c, rest⟩
        · rw [dEval, dEvalList_eq_omap, hlt] at hw
          simp [omap, domConcatEval, domTriples, sortByKey, vconcatV] at hw
        · rcases rest with _ | ⟨c₂, rest₂⟩
          · have h1 : ¬ ((l.toList).length > 1) := by rw [hlt]; simp
            simp only [instrOf, hdt] at he
            rw [if_neg h1, hlt] at he
            simp only [List.map_cons, List.map_nil] at he
            obtain rfl := Except.ok.inj he
            rw [dEval, dEvalList_eq_omap, hlt] at hw
            rcases Option.bind_eq_some.mp hw with ⟨vals, hvals, hcc⟩
            rw [omap] at hvals
            rcases Option.bind_eq_some.mp hvals with ⟨vc, hvc, h2⟩
            rcases Option.map_eq_some'.mp h2 with ⟨vs0, hvs0, rfl⟩
            rw [omap] at hvs0
            obtain rfl := Option.some.inj hvs0
            simp only [domConcatEval, Option.some.injEq] at hcc
            have hba := hrefs (cref c) (by simp [PyExpr.refs])
            rw [evalPyExpr, alook_cref henv hba hvc, hcc]
          · have h1 : (l.toList).length > 1 := by rw [hlt]; simp
            simp only [instrOf, hdt] at he
            rw [if_pos h1] at he
            obtain rfl := Except.ok.inj he
            rw [dEval, dEvalList_eq_omap] at hw
            rcases Option.bind_eq_some.mp hw with ⟨vals, hvals, hdc⟩
            have hlen : vals.length = (l.toList).length := length_of_omap_eq_some hvals
            rcases vals with _ | ⟨v₁, vtail⟩
            · rw [hlt] at hlen
              simp at hlen
            rcases vtail with _ | ⟨v₂, vrest⟩
            · rw [hlt] at hlen
              simp at hlen
            simp only [domConcatEval] at hdc
            rcases Option.bind_eq_some.mp hdc with ⟨trv, htrv, hrest2⟩
            rcases Option.bind_eq_some.mp hrest2 with ⟨segs, hsegs, hw2⟩
            have hF : List.Forall₂
                (fun v (r : Ref) => ∃ c0, r = cref c0 ∧ dEval Φ t y c0 = some v)
                (v₁ :: v₂ :: vrest) ((l.toList).map cref) := by
              have h2 := (forall₂_of_omap_eq_some hvals).flip
              rw [List.forall₂_map_right_iff]
              exact forall₂_imp_mem h2 (fun v c0 _ _ hvc => ⟨c0, rfl, hvc⟩)
            obtain ⟨tr', htr', hQ⟩ := domTriples_forall₂ hF csl fsl htrv
            rw [hdt] at htr'
            obtain rfl := Option.some.inj htr'
            have hQs := sortByKey_forall₂ (fun p q hpq => hpq.1) hQ
            have hfinal : omap (fun p => (alook env p.1).bind
                  (fun v => valSlice v p.2.1 p.2.2))
                ((sortByKey tr).map (fun q => (q.2.1, q.2.2.1, q.2.2.2))) = some segs := by
              rw [omap_map]
              have hf : ∀ p q, p ∈ sortByKey trv → q ∈ sortByKey tr →
                  (p.1 = q.1 ∧ (∃ c0, q.2.1 = cref c0 ∧ dEval Φ t y c0 = some p.2.1) ∧
                    p.2.2 = q.2.2) →
                  ∀ b₁, valSlice p.2.1 p.2.2.1 p.2.2.2 = some b₁ →
                    ∃ b₂, (alook env q.2.1).bind
                      (fun v => valSlice v q.2.2.1 q.2.2.2) = some b₂ ∧ b₁ = b₂ := by
                rintro p q hp hq ⟨hk, ⟨c0, hc0r, hc0v⟩, hb⟩ b₁ hb₁
                have hqm : q.2.1 ∈ (PyExpr.npConcatSlices
                    ((sortByKey tr).map (fun q => (q.2.1, q.2.2.1, q.2.2.2)))).refs := by
                  simp only [PyExpr.refs, List.map_map]
                  exact List.mem_map_of_mem _ hq
                have hbound := hrefs _ hqm
                rw [hc0r] at hbound ⊢
                rw [alook_cref henv hbound hc0v]
                refine ⟨b₁, ?_, rfl⟩
                rw [Option.some_bind, ← congrArg Prod.fst hb, ← congrArg Prod.snd hb]
                exact hb₁
              obtain ⟨segs', hsegs', hEq⟩ := omap_forall₂ hQs hf hsegs
              rw [hsegs', eq_of_forall₂_eq hEq]
            rw [evalPyExpr, hfinal]
            simpa using hw2

/-! ## Correct execution of the whole program -/

/-- Inserting a correct variable binding preserves environment correctness. -/
theorem EnvOK_insert {Φ : Nat → Value → Option Value} {t : Option ℚ} {y : Option Mat}
    {env : Env} {s : Symb} {v : Value} (henv : EnvOK Φ t y env)
    (hval : dEval Φ t y s = some v) : EnvOK Φ t y (odInsert env (s, false) v) := by
  intro r u hu
  by_cases hr : r = (s, false)
  · subst hr
    rw [alook_odInsert_self] at hu
    obtain rfl := Option.some.inj hu
    simpa only [RefOK] using hval
  · rw [alook_odInsert_of_ne v hr] at hu
    exact henv r u hu

/-- Insertions never unbind a reference. -/
theorem alook_isSome_odInsert {K V : Type} [DecidableEq K] {d : List (K × V)}
    {k k' : K} (v : V) (h : (alook d k').isSome) :
    (alook (odInsert d k v) k').isSome := by
  by_cases hk : k' = k
  · subst hk
    rw [alook_odInsert_self]
    rfl
  · rwa [alook_odInsert_of_ne v hk]

/-- Soundness of program execution: under a correct environment binding all
externally available references, a dependency-ordered program of correct
instructions runs to completion, keeps the environment correct, loses no
binding, and binds every program line's variable. -/
theorem execProg_sound (Φ : Nat → Value → Option Value) (t : Option ℚ) (y : Option Mat) :
    ∀ (vs : List (Symb × PyExpr)) (env : Env) (avail : List Ref),
      DepOK avail vs →
      (∀ p ∈ vs, vsEntryOK Φ t y p.1 p.2) →
      (∀ r ∈ avail, (alook env r).isSome) →
      EnvOK Φ t y env →
      ∃ env', execProg Φ t y env vs = some env' ∧ EnvOK Φ t y env' ∧
        (∀ r, (alook env r).isSome → (alook env' r).isSome) ∧
        (∀ p ∈ vs, (alook env' (p.1, false)).isSome)
  | [], env, avail, _, _, _, henv => ⟨env, rfl, henv, fun _ h => h, by simp⟩
  | (s, e) :: rest, env, avail, hdep, hvs, hav, henv => by
      rw [DepOK] at hdep
      obtain ⟨hnc, hinstr, hsucc⟩ := hvs (s, e) (List.mem_cons_self _ _)
      obtain ⟨w, hw⟩ := Option.isSome_iff_exists.mp hsucc
      have hstep : evalPyExpr Φ t y env e = some w :=
        evalInstr_correct Φ t y hinstr hnc hw henv
          (fun r hr => hav r (hdep.1 r hr))
      have henv₁ : EnvOK Φ t y (odInsert env (s, false) w) := EnvOK_insert henv hw
      have hav₁ : ∀ r ∈ (s, false) :: avail,
          (alook (odInsert env (s, false) w) r).isSome := by
        intro r hr
        rcases List.mem_cons.mp hr with rfl | hr
        · rw [alook_odInsert_self]
          rfl
        · exact alook_isSome_odInsert w (hav r hr)
      obtain ⟨env', hrun, henv', hpres, hbound⟩ :=
        execProg_sound Φ t y rest (odInsert env (s, false) w) ((s, false) :: avail)
          hdep.2 (fun p hp => hvs p (List.mem_cons_of_mem _ hp)) hav₁ henv₁
      refine ⟨env', ?_, henv', ?_, ?_⟩
      · rw [execProg, hstep, Option.some_bind]
        exact hrun
      · intro r hr
        exact hpres r (alook_isSome_odInsert w hr)
      · intro p hp
        rcases List.mem_cons.mp hp with rfl | hp
        · exact hpres _ (hav₁ _ (List.mem_cons_self _ _))
        · exact hbound p hp

/-! ## The two emission steps of `find_symbols` -/

theorem odInsert_of_not_mem {K V : Type} [DecidableEq K] {d : List (K × V)} {k : K}
    (v : V) (h : k ∉ keysOf d) : odInsert d k v = d ++ [(k, v)] := by
  induction d with
  | nil => simp [odInsert]
  | cons q rest ih =>
      obtain ⟨k', v'⟩ := q
      have h1 : k ≠ k' ∧ k ∉ keysOf rest := by
        constructor
        · intro hk
          exact h (by simp [keysOf, hk])
        · intro hk
          refine h ?_
          rw [keysOf, List.map_cons]
          exact List.mem_cons_of_mem _ hk
      rw [odInsert, if_neg h1.1, ih h1.2]
      rfl

theorem forall₂_mem_right {α β : Type} {R : α → β → Prop} :
    ∀ {l₁ : List α} {l₂ : List β}, List.Forall₂ R l₁ l₂ → ∀ b ∈ l₂,
      ∃ a ∈ l₁, R a b
  | [], [], _, b, hb => by simp at hb
  | a :: l, b' :: m, h, b, hb => by
      rcases h with _ | ⟨hab, hrest⟩
      rcases List.mem_cons.mp hb with rfl | hb
      · exact ⟨a, List.mem_cons_self _ _, hab⟩
      · obtain ⟨a', ha', hR⟩ := forall₂_mem_right hrest b hb
        exact ⟨a', List.mem_cons_of_mem _ ha', hR⟩

/-- Every payload in a `domTriples` result is one of the child payloads. -/
theorem domTriples_payload_mem {α : Type} {items : List α} {csl : List DomSlices}
    {fsl : DomSlices} {tr : List (Nat × α × Nat × Nat)}
    (h : domTriples items csl fsl = some tr) : ∀ q ∈ tr, q.2.1 ∈ items := by
  rw [domTriples] at h
  rcases Option.map_eq_some'.mp h with ⟨L, hL, rfl⟩
  intro q hq
  obtain ⟨ts, hts, hqts⟩ := List.mem_flatten.mp hq
  obtain ⟨⟨a, sl⟩, hmem, hrel⟩ := forall₂_mem_right (forall₂_of_omap_eq_some hL) ts hts
  obtain ⟨x, _, hx⟩ := forall₂_mem_right (forall₂_of_omap_eq_some hrel) q hqts
  rcases Option.map_eq_some'.mp hx with ⟨fs, _, rfl⟩
  exact (List.of_mem_zip hmem).1

/-- A node's placement in the output tables after processing. -/
def Placed (s : Symb) (cs : ODV) (vs : ODE) : Prop :=
  (s.is_constant = true → s ∈ keysOf cs) ∧
  (s.is_constant = false → s ∈ keysOf vs) ∧
  (∀ hf a, s = Symb.fn hf a → s.is_constant = false → s ∈ keysOf cs)

theorem Placed.mono {s : Symb} {cs cs' : ODV} {vs vs' : ODE}
    (hcs : ∀ k ∈ keysOf cs, k ∈ keysOf cs') (hvs : ∀ k ∈ keysOf vs, k ∈ keysOf vs')
    (h : Placed s cs vs) : Placed s cs' vs' :=
  ⟨fun hc => hcs s (h.1 hc), fun hc => hvs s (h.2.1 hc),
    fun hf a heq hc => hcs s (h.2.2 hf a heq hc)⟩

/-- The constant branch: eager evaluation succeeds (by input-independence)
and only extends the constant table with a correct entry. -/
theorem emitConst_ok (Φ : Nat → Value → Option Value) (t : Option ℚ) (y : Option Mat)
    {sym : Symb} {cs : ODV} {vs : ODE} (hcon : sym.is_constant = true)
    (hsucc : (dEval Φ t y sym).isSome) (hT : TablesOK Φ t y cs vs) :
    ∃ cs', emitConst Φ sym cs vs = .ok (cs', vs) ∧ TablesOK Φ t y cs' vs ∧
      (∀ k ∈ keysOf cs, k ∈ keysOf cs') ∧
      (∀ k ∈ keysOf cs', k ∈ keysOf cs ∨ k = sym) ∧
      sym ∈ keysOf cs' := by
  obtain ⟨v, hv⟩ := Option.isSome_iff_exists.mp hsucc
  have hv0 : dEval Φ none none sym = some v := by
    rw [← dEval_of_is_constant Φ t y hcon]
    exact hv
  obtain ⟨hcsOK, hvsOK, hndc, hndv, hdep⟩ := hT
  refine ⟨odInsert cs sym v, ?_, ⟨?_, hvsOK, nodup_keysOf_odInsert v hndc, hndv, ?_⟩,
    ?_, ?_, ?_⟩
  · rw [emitConst, hv0]
  · intro p hp
    rcases mem_of_mem_odInsert hp with rfl | hp
    · exact Or.inl ⟨hcon, hv0⟩
    · exact hcsOK p hp
  · refine DepOK_mono ?_ hdep
    intro r hr
    rw [constRefs] at hr ⊢
    obtain ⟨k, hk, rfl⟩ := List.mem_map.mp hr
    exact List.mem_map_of_mem _ (mem_keysOf_odInsert.mpr (Or.inl hk))
  · intro k hk
    exact mem_keysOf_odInsert.mpr (Or.inl hk)
  · intro k hk
    exact mem_keysOf_odInsert.mp hk
  · exact mem_keysOf_odInsert.mpr (Or.inr rfl)

theorem fnTable_keys_mono {sym : Symb} {cs : ODV} :
    ∀ k ∈ keysOf cs, k ∈ keysOf (fnTable sym cs) := by
  intro k hk
  cases sym <;> simp only [fnTable] <;>
    first
      | exact hk
      | exact mem_keysOf_odInsert.mpr (Or.inl hk)

theorem fnTable_keys_sub {sym : Symb} {cs : ODV} :
    ∀ k ∈ keysOf (fnTable sym cs), k ∈ keysOf cs ∨ k = sym := by
  intro k hk
  cases sym <;> simp only [fnTable] at hk <;>
    first
      | exact Or.inl hk
      | exact mem_keysOf_odInsert.mp hk

/-- The variable-emission step (`emitVar`): given a generated instruction
whose references are all available, it appends (or re-writes, unchanged)
the node's instruction, preserving the invariant. -/
theorem emitVar_ok (Φ : Nat → Value → Option Value) (t : Option ℚ) (y : Option Mat)
    {sym : Symb} {e : PyExpr} {cs : ODV} {vs : ODE}
    (hnc : sym.is_constant = false)
    (hsucc : (dEval Φ t y sym).isSome)
    (hinstr : instrOf sym = .ok e)
    (hT : TablesOK Φ t y cs vs)
    (hrefs : ∀ r ∈ e.refs, r ∈ constRefs (fnTable sym cs) ∨ r ∈ varKeys vs) :
    ∃ vs', emitVar sym cs vs = .ok (fnTable sym cs, vs') ∧
      TablesOK Φ t y (fnTable sym cs) vs' ∧
      (∀ k ∈ keysOf vs, k ∈ keysOf vs') ∧
      (∀ k ∈ keysOf vs', k ∈ keysOf vs ∨ k = sym) ∧
      keysOf vs' = fdTail sym (keysOf vs) ∧
      sym ∈ keysOf vs' := by
  obtain ⟨hcsOK, hvsOK, hndc, hndv, hdep⟩ := hT
  have hcsF : ∀ p ∈ fnTable sym cs, csEntryOK Φ p.1 p.2 := by
    intro p hp
    cases sym with
    | fn hf a =>
        rcases mem_of_mem_odInsert hp with rfl | hp
        · exact Or.inr ⟨hnc, hf, a, rfl, rfl⟩
        · exact hcsOK p hp
    | _ => exact hcsOK p (by simpa [fnTable] using hp)
  have hndcF : (keysOf (fnTable sym cs)).Nodup := by
    cases sym <;> simp only [fnTable] <;>
      first
        | exact hndc
        | exact nodup_keysOf_odInsert _ hndc
  have hdepF : DepOK (constRefs (fnTable sym cs)) vs := by
    refine DepOK_mono ?_ hdep
    intro r hr
    rw [constRefs] at hr ⊢
    obtain ⟨k, hk, rfl⟩ := List.mem_map.mp hr
    exact List.mem_map_of_mem _ (fnTable_keys_mono k hk)
  have hemit : emitVar sym cs vs = .ok (fnTable sym cs, odInsert vs sym e) := by
    rw [emitVar, hinstr]
    rfl
  by_cases hmem : sym ∈ keysOf vs
  · obtain ⟨e₀, he₀⟩ := exists_mem_of_mem_keysOf hmem
    have he₀OK := hvsOK _ he₀
    have heq : e₀ = e := by
      have h2 := he₀OK.2.1
      rw [hinstr] at h2
      exact (Except.ok.inj h2).symm
    rw [heq] at he₀
    have hins : odInsert vs sym e = vs := odInsert_of_mem hndv he₀
    refine ⟨vs, by rw [hemit, hins], ⟨hcsF, hvsOK, hndcF, hndv, hdepF⟩,
      fun k hk => hk, fun k hk => Or.inl hk, ?_, hmem⟩
    rw [fdTail, if_pos hmem]
  · have hins : odInsert vs sym e = vs ++ [(sym, e)] := odInsert_of_not_mem e hmem
    have hkeys : keysOf (odInsert vs sym e) = keysOf vs ++ [sym] :=
      keysOf_odInsert_of_not_mem e hmem
    refine ⟨vs ++ [(sym, e)], by rw [hemit, hins], ⟨hcsF, ?_, hndcF, ?_, ?_⟩,
      ?_, ?_, ?_, ?_⟩
    · intro p hp
      rcases List.mem_append.mp hp with hp | hp
      · exact hvsOK p hp
      · obtain rfl : p = (sym, e) := by simpa using hp
        exact ⟨hnc, hinstr, hsucc⟩
    · rw [← hins, hkeys, List.nodup_append]
      exact ⟨hndv, List.nodup_singleton _, by simpa using fun hk => hmem hk⟩
    · rw [← hins]
      rw [hins]
      exact DepOK_append_one hdepF hrefs
    · intro k hk
      rw [keysOf, List.map_append]
      exact List.mem_append.mpr (Or.inl hk)
    · intro k hk
      rw [keysOf, List.map_append] at hk
      rcases List.mem_append.mp hk with hk | hk
      · exact Or.inl hk
      · exact Or.inr (by simpa using hk)
    · rw [← hins, hkeys, fdTail, if_neg hmem]
    · rw [keysOf, List.map_append]
      exact List.mem_append.mpr (Or.inr (by simp))

/-! ## Helpers for the main compilation theorem -/

theorem ok_bind {ε α β : Type} (a : α) (f : α → Except ε β) :
    (Except.ok a >>= f : Except ε β) = f a := rfl

theorem omap_isSome {α β : Type} {f : α → Option β} :
    ∀ {l : List α}, (∀ a ∈ l, (f a).isSome) → (omap f l).isSome
  | [], _ => rfl
  | a :: l, h => by
      rw [omap]
      obtain ⟨b, hb⟩ := Option.isSome_iff_exists.mp (h a (List.mem_cons_self a l))
      obtain ⟨bs, hbs⟩ := Option.isSome_iff_exists.mp
        (omap_isSome (fun x hx => h x (List.mem_cons_of_mem a hx)))
      rw [hb, hbs]
      rfl

/-- Covered metadata never raises the `KeyError`. -/
theorem domTriples_isSome_of_covered {α : Type} {csl : List DomSlices} {fsl : DomSlices}
    (h : domCovered csl fsl = true) (items : List α) :
    (domTriples items csl fsl).isSome := by
  rw [domTriples]
  have hs : (omap (fun p => omap (fun sl => (domLookup fsl sl.1).map
      (fun fs => (fs.1, p.1, sl.2.1, sl.2.2))) p.2) (items.zip csl)).isSome := by
    refine omap_isSome ?_
    rintro ⟨a, sl⟩ hmem
    have hsl : sl ∈ csl := (List.of_mem_zip hmem).2
    refine omap_isSome ?_
    intro d hd
    rw [domCovered, List.all_eq_true] at h
    have := h sl hsl
    rw [List.all_eq_true] at this
    obtain ⟨fs, hfs⟩ := Option.isSome_iff_exists.mp (this d hd)
    rw [hfs]
    rfl
  obtain ⟨L, hL⟩ := Option.isSome_iff_exists.mp hs
  rw [hL]
  rfl

theorem self_mem_reach : ∀ s : Symb, s ∈ reach s := by
  intro s
  cases s <;> rw [reach] <;> first
    | simp
    | (split <;> simp)

/-- A placed child's reference is available among the emitted references. -/
theorem cref_avail {sym c : Symb} {cs : ODV} {vs : ODE} (hp : Placed c cs vs) :
    cref c ∈ constRefs (fnTable sym cs) ∨ cref c ∈ varKeys vs := by
  rw [cref]
  cases hc : c.is_constant
  · right
    rw [varKeys]
    obtain ⟨p, hpm, hp1⟩ := List.mem_map.mp (hp.2.1 hc)
    have : (fun q : Symb × PyExpr => (q.1, false)) p = (c, false) := by simp [hp1]
    rw [← this]
    exact List.mem_map_of_mem _ hpm
  · left
    rw [constRefs]
    exact List.mem_map_of_mem _ (fnTable_keys_mono c (hp.1 hc))

/-- The `Function` rule's own constant reference is available after the
handle insertion. -/
theorem fn_self_avail {hf : Nat} {a : Symb} {cs : ODV} :
    ((Symb.fn hf a : Symb), true) ∈ constRefs (fnTable (.fn hf a) cs) := by
  rw [constRefs]
  refine List.mem_map_of_mem _ ?_
  rw [fnTable]
  exact mem_keysOf_odInsert.mpr (Or.inr rfl)

section MainProof

variable (Φ : Nat → Value → Option Value) (t : Option ℚ) (y : Option Mat)

/-- The effect of one compilation step on the two tables: the invariant is
preserved, keys only grow, the `variable_symbols` key sequence evolves by
`F`, new keys come only from the processed nodes `R`, and every processed
node is placed. -/
def StepOut (R : List Symb) (F : List Symb → List Symb) (cs : ODV) (vs : ODE)
    (cs' : ODV) (vs' : ODE) : Prop :=
  TablesOK Φ t y cs' vs' ∧
  (∀ k ∈ keysOf cs, k ∈ keysOf cs') ∧
  (∀ k ∈ keysOf vs, k ∈ keysOf vs') ∧
  keysOf vs' = F (keysOf vs) ∧
  (∀ k ∈ keysOf cs', k ∈ keysOf cs ∨ k ∈ R) ∧
  (∀ k ∈ keysOf vs', k ∈ keysOf vs ∨ k ∈ R) ∧
  (∀ s ∈ R, Placed s cs' vs')

theorem StepOut_refl {cs : ODV} {vs : ODE} (hT : TablesOK Φ t y cs vs) :
    StepOut Φ t y [] (fun ks => ks) cs vs cs vs :=
  ⟨hT, fun _ hk => hk, fun _ hk => hk, rfl, fun k hk => Or.inl hk,
    fun k hk => Or.inl hk, by simp⟩

theorem StepOut_comp {R₁ R₂ : List Symb} {F₁ F₂ : List Symb → List Symb}
    {cs vs cs₁ vs₁ cs₂ vs₂} (O₁ : StepOut Φ t y R₁ F₁ cs vs cs₁ vs₁)
    (O₂ : StepOut Φ t y R₂ F₂ cs₁ vs₁ cs₂ vs₂) :
    StepOut Φ t y (R₁ ++ R₂) (fun ks => F₂ (F₁ ks)) cs vs cs₂ vs₂ := by
  obtain ⟨hT₁, hmc₁, hmv₁, hfd₁, hsc₁, hsv₁, hpl₁⟩ := O₁
  obtain ⟨hT₂, hmc₂, hmv₂, hfd₂, hsc₂, hsv₂, hpl₂⟩ := O₂
  refine ⟨hT₂, fun k hk => hmc₂ k (hmc₁ k hk), fun k hk => hmv₂ k (hmv₁ k hk),
    by rw [hfd₂, hfd₁], ?_, ?_, ?_⟩
  · intro k hk
    rcases hsc₂ k hk with hk' | hk'
    · rcases hsc₁ k hk' with h | h
      · exact Or.inl h
      · exact Or.inr (List.mem_append.mpr (Or.inl h))
    · exact Or.inr (List.mem_append.mpr (Or.inr hk'))
  · intro k hk
    rcases hsv₂ k hk with hk' | hk'
    · rcases hsv₁ k hk' with h | h
      · exact Or.inl h
      · exact Or.inr (List.mem_append.mpr (Or.inl h))
    · exact Or.inr (List.mem_append.mpr (Or.inr hk'))
  · intro s hs
    rcases List.mem_append.mp hs with hs | hs
    · exact Placed.mono hmc₂ hmv₂ (hpl₁ s hs)
    · exact hpl₂ s hs

theorem StepOut_relabel {R R' : List Symb} {F F' : List Symb → List Symb}
    {cs vs cs' vs'} (hR : ∀ s, s ∈ R ↔ s ∈ R')
    (hF : F' (keysOf vs) = F (keysOf vs))
    (O : StepOut Φ t y R F cs vs cs' vs') :
    StepOut Φ t y R' F' cs vs cs' vs' := by
  obtain ⟨hT, hmc, hmv, hfd, hsc, hsv, hpl⟩ := O
  exact ⟨hT, hmc, hmv, by rw [hF, hfd], fun k hk => (hsc k hk).imp id ((hR k).mp),
    fun k hk => (hsv k hk).imp id ((hR k).mp), fun s hs => hpl s ((hR s).mpr hs)⟩

theorem StepOut_emitConst {sym : Symb} {cs : ODV} {vs : ODE}
    (hcon : sym.is_constant = true) (hsucc : (dEval Φ t y sym).isSome)
    (hT : TablesOK Φ t y cs vs) :
    ∃ cs', emitConst Φ sym cs vs = .ok (cs', vs) ∧
      StepOut Φ t y [sym] (fun ks => ks) cs vs cs' vs := by
  obtain ⟨cs', hc, hT', hmono, hsub, hmem⟩ := emitConst_ok Φ t y hcon hsucc hT
  refine ⟨cs', hc, hT', hmono, fun _ hk => hk, rfl,
    fun k hk => (hsub k hk).imp id (by simp +contextual), fun k hk => Or.inl hk, ?_⟩
  intro s hs
  obtain rfl : s = sym := by simpa using hs
  refine ⟨fun _ => hmem, fun hf => ?_, fun hf a heq hnc => ?_⟩
  · rw [hcon] at hf
    exact absurd hf (by simp)
  · rw [hcon] at hnc
    exact absurd hnc (by simp)

theorem StepOut_emitVar {sym : Symb} {cs : ODV} {vs : ODE} {e : PyExpr}
    (hncf : sym.is_constant = false) (hsucc : (dEval Φ t y sym).isSome)
    (hinstr : instrOf sym = .ok e) (hT : TablesOK Φ t y cs vs)
    (hrefs : ∀ r ∈ e.refs, r ∈ constRefs (fnTable sym cs) ∨ r ∈ varKeys vs) :
    ∃ vs', emitVar sym cs vs = .ok (fnTable sym cs, vs') ∧
      StepOut Φ t y [sym] (fdTail sym) cs vs (fnTable sym cs) vs' := by
  obtain ⟨vs', hemit, hT', hmv, hsv, hfd, hmem⟩ := emitVar_ok Φ t y hncf hsucc hinstr hT hrefs
  refine ⟨vs', hemit, hT', fnTable_keys_mono, hmv, hfd,
    fun k hk => (fnTable_keys_sub k hk).imp id (by simp +contextual),
    fun k hk => (hsv k hk).imp id (by simp +contextual), ?_⟩
  intro s hs
  obtain rfl : s = sym := by simpa using hs
  refine ⟨fun hc => ?_, fun _ => hmem, fun hf a heq _ => ?_⟩
  · rw [hncf] at hc
    exact absurd hc (by simp)
  · subst heq
    rw [fnTable]
    exact mem_keysOf_odInsert.mpr (Or.inr rfl)

end MainProof

theorem mem_reachList : ∀ {l : SymbList} {c : Symb}, c ∈ l.toList → c ∈ reachList l
  | .cons c0 rest, c, h => by
      rw [SymbList.toList] at h
      rw [reachList]
      rcases List.mem_cons.mp h with rfl | h
      · exact List.mem_append.mpr (Or.inl (self_mem_reach c))
      · exact List.mem_append.mpr (Or.inr (mem_reachList h))

/-- A supported non-constant node always has a generated instruction. -/
theorem instrOf_isOk {sym : Symb} (hsup : sym.supported = true)
    (hnc : sym.is_constant = false) : ∃ e, instrOf sym = .ok e := by
  cases sym with
  | const v => simp [Symb.is_constant, Symb.containsTY] at hnc
  | bin op a b => exact ⟨_, rfl⟩
  | mul a b => exact ⟨_, rfl⟩
  | div a b => exact ⟨_, rfl⟩
  | fn hf a => exact ⟨_, rfl⟩
  | idx i a => exact ⟨_, rfl⟩
  | un op a => exact ⟨_, rfl⟩
  | npConcat l =>
      rw [instrOf]
      split
      · exact ⟨_, rfl⟩
      · split <;> exact ⟨_, rfl⟩
  | spStack l => exact ⟨_, rfl⟩
  | domConcat l csl fsl =>
      have hcov : domCovered csl fsl = true := by
        rw [Symb.supported, Bool.and_eq_true] at hsup
        exact hsup.1
      obtain ⟨tr, htr⟩ := Option.isSome_iff_exists.mp
        (domTriples_isSome_of_covered hcov ((l.toList).map cref))
      rw [instrOf, htr]
      simp only []
      split
      · exact ⟨_, rfl⟩
      · split <;> exact ⟨_, rfl⟩
  | stateVector a b => exact ⟨_, rfl⟩
  | time => exact ⟨_, rfl⟩
  | concatOther k l => simp [Symb.supported] at hsup
  | unsupported k l => simp [Symb.supported] at hsup

/-- Every reference of a generated instruction is either the node's own
constant reference (`Function` rule) or a child's reference. -/
theorem instrOf_refs_sub {sym : Symb} {e : PyExpr} (he : instrOf sym = .ok e) :
    ∀ r ∈ e.refs, (r = (sym, true) ∧ ∃ hf a, sym = Symb.fn hf a) ∨
      r ∈ (sym.childrenL).map cref := by
  cases sym with
  | const v => simp [instrOf] at he
  | bin op a b =>
      obtain rfl := Except.ok.inj he
      intro r hr
      rcases (by simpa [PyExpr.refs] using hr : r = cref a ∨ r = cref b) with rfl | rfl <;>
        simp [Symb.childrenL]
  | mul a b =>
      obtain rfl := Except.ok.inj he
      intro r hr
      rcases (by simpa [PyExpr.refs] using hr : r = cref a ∨ r = cref b) with rfl | rfl <;>
        simp [Symb.childrenL]
  | div a b =>
      obtain rfl := Except.ok.inj he
      intro r hr
      rcases (by simpa [PyExpr.refs] using hr : r = cref a ∨ r = cref b) with rfl | rfl <;>
        simp [Symb.childrenL]
  | fn hf a =>
      obtain rfl := Except.ok.inj he
      intro r hr
      rcases (by simpa [PyExpr.refs] using hr :
          r = ((Symb.fn hf a : Symb), true) ∨ r = cref a) with rfl | rfl
      · exact Or.inl ⟨rfl, hf, a, rfl⟩
      · simp [Symb.childrenL]
  | idx i a =>
      obtain rfl := Except.ok.inj he
      intro r hr
      obtain rfl : r = cref a := by simpa [PyExpr.refs] using hr
      simp [Symb.childrenL]
  | un op a =>
      obtain rfl := Except.ok.inj he
      intro r hr
      obtain rfl : r = cref a := by simpa [PyExpr.refs] using hr
      simp [Symb.childrenL]
  | npConcat l =>
      rw [instrOf] at he
      split at he
      · obtain rfl := Except.ok.inj he
        intro r hr
        exact Or.inr (by simpa [PyExpr.refs, Symb.childrenL] using hr)
      · split at he
        · next heq =>
            obtain rfl := Except.ok.inj he
            intro r hr
            have hm : r ∈ (l.toList).map cref := by
              rw [heq]
              simpa [PyExpr.refs] using hr
            exact Or.inr (by simpa [Symb.childrenL] using hm)
        · obtain rfl := Except.ok.inj he
          intro r hr
          simp [PyExpr.refs] at hr
  | spStack l =>
      obtain rfl := Except.ok.inj he
      intro r hr
      exact Or.inr (by simpa [PyExpr.refs, Symb.childrenL] using hr)
  | domConcat l csl fsl =>
      rw [instrOf] at he
      rcases htr : domTriples ((l.toList).map cref) csl fsl with _ | tr
      · rw [htr] at he
        simp at he
      · rw [htr] at he
        simp only [] at he
        split at he
        · obtain rfl := Except.ok.inj he
          intro r hr
          simp only [PyExpr.refs, List.map_map, List.mem_map] at hr
          obtain ⟨q, hq, rfl⟩ := hr
          refine Or.inr ?_
          have hp := domTriples_payload_mem htr q ((sortByKey_perm tr).mem_iff.mp hq)
          simpa [Symb.childrenL] using hp
        · split at he
          · next heq =>
              obtain rfl := Except.ok.inj he
              intro r hr
              have hm : r ∈ (l.toList).map cref := by
                rw [heq]
                simpa [PyExpr.refs] using hr
              exact Or.inr (by simpa [Symb.childrenL] using hm)
          · obtain rfl := Except.ok.inj he
            intro r hr
            simp [PyExpr.refs] at hr
  | stateVector a b =>
      obtain rfl := Except.ok.inj he
      intro r hr
      simp [PyExpr.refs] at hr
  | time =>
      obtain rfl := Except.ok.inj he
      intro r hr
      simp [PyExpr.refs] at hr
  | concatOther k l => simp [instrOf] at he
  | unsupported k l => simp [instrOf] at he

section MainTheorem

variable (Φ : Nat → Value → Option Value) (t : Option ℚ) (y : Option Mat)

/-- Shared ending of the constant branch. -/
theorem fs_const_finish {sym : Symb} {cs : ODV} {vs : ODE}
    (hcon : sym.is_constant = true) (hsucc : (dEval Φ t y sym).isSome)
    (hT : TablesOK Φ t y cs vs)
    (hfind : find_symbols Φ sym cs vs = emitConst Φ sym cs vs)
    (hfd : fdVars sym (keysOf vs) = keysOf vs)
    (hreach : ∀ s, s ∈ reach sym ↔ s = sym) :
    ∃ cs' vs', find_symbols Φ sym cs vs = .ok (cs', vs') ∧
      StepOut Φ t y (reach sym) (fdVars sym) cs vs cs' vs' := by
  obtain ⟨cs', hc, O⟩ := StepOut_emitConst Φ t y hcon hsucc hT
  refine ⟨cs', vs, by rw [hfind, hc], StepOut_relabel Φ t y (fun s => ?_) hfd O⟩
  rw [List.mem_singleton, hreach s]

/-- Shared ending of the variable branch: resolve the instruction, check
its references against the processed children, and emit. -/
theorem fs_var_finish {sym : Symb} {cs vs cs₂ : _} {vs₂ : ODE}
    {Rc : List Symb} {Fc : List Symb → List Symb}
    (hncf : sym.is_constant = false) (hsup : sym.supported = true)
    (hsucc : (dEval Φ t y sym).isSome)
    (Oc : StepOut Φ t y Rc Fc cs vs cs₂ vs₂)
    (hplaced : ∀ c ∈ sym.childrenL, Placed c cs₂ vs₂) :
    ∃ vs₃, emitVar sym cs₂ vs₂ = .ok (fnTable sym cs₂, vs₃) ∧
      StepOut Φ t y (Rc ++ [sym]) (fun ks => fdTail sym (Fc ks)) cs vs
        (fnTable sym cs₂) vs₃ := by
  obtain ⟨e, he⟩ := instrOf_isOk hsup hncf
  have hrefs : ∀ r ∈ e.refs, r ∈ constRefs (fnTable sym cs₂) ∨ r ∈ varKeys vs₂ := by
    intro r hr
    rcases instrOf_refs_sub he r hr with ⟨rfl, hf, a, heq⟩ | hm
    · subst heq
      exact Or.inl fn_self_avail
    · obtain ⟨c, hc, rfl⟩ := List.mem_map.mp hm
      exact cref_avail (hplaced c hc)
  obtain ⟨vs₃, hemit, Oe⟩ := StepOut_emitVar Φ t y hncf hsucc he Oc.1 hrefs
  exact ⟨vs₃, hemit, StepOut_comp Φ t y Oc Oe⟩

mutual
/-- The main compilation theorem: on a supported graph whose direct
evaluation succeeds, `find_symbols` succeeds and transforms the tables as
described by `StepOut` — invariant preserved, keys extended exactly by the
reachable nodes, `variable_symbols` keys evolving by first-discovery
post-order, and every reachable node placed. -/
theorem find_symbols_ok :
    ∀ (sym : Symb) (cs : ODV) (vs : ODE), sym.supported = true →
      (dEval Φ t y sym).isSome → TablesOK Φ t y cs vs →
      ∃ cs' vs', find_symbols Φ sym cs vs = .ok (cs', vs') ∧
        StepOut Φ t y (reach sym) (fdVars sym) cs vs cs' vs'
  | sym, cs, vs, hsup, hsucc, hT => by
      cases sym with
      | const v =>
          exact fs_const_finish Φ t y rfl hsucc hT
            (by rw [find_symbols, if_pos (show (Symb.const v).is_constant = true from rfl)]) rfl
            (fun s => by rw [reach, List.mem_singleton])
      | bin op a b =>
          by_cases hcon : (Symb.bin op a b).is_constant = true
          · exact fs_const_finish Φ t y hcon hsucc hT
              (by rw [find_symbols, if_pos hcon]) (by rw [fdVars, if_pos hcon])
              (fun s => by rw [reach, if_pos hcon, List.mem_singleton])
          · have hncf : (Symb.bin op a b).is_constant = false := by
              revert hcon
              cases (Symb.bin op a b).is_constant <;> simp
            have hsup2 : a.supported = true ∧ b.supported = true := by
              simpa [Symb.supported, Bool.and_eq_true] using hsup
            obtain ⟨w, hw⟩ := Option.isSome_iff_exists.mp hsucc
            rw [dEval] at hw
            rcases Option.bind_eq_some.mp hw with ⟨va, hva, hw2⟩
            rcases Option.bind_eq_some.mp hw2 with ⟨vb, hvb, _⟩
            obtain ⟨cs₁, vs₁, h₁, O₁⟩ :=
              find_symbols_ok a cs vs hsup2.1 (by rw [hva]; rfl) hT
            obtain ⟨cs₂, vs₂, h₂, O₂⟩ :=
              find_symbols_ok b cs₁ vs₁ hsup2.2 (by rw [hvb]; rfl) O₁.1
            have Oc := StepOut_comp Φ t y O₁ O₂
            have hplaced : ∀ c ∈ (Symb.bin op a b).childrenL, Placed c cs₂ vs₂ := by
              intro c hc
              rcases (by simpa [Symb.childrenL] using hc : c = a ∨ c = b) with rfl | rfl
              · exact Oc.2.2.2.2.2.2 c (List.mem_append.mpr (Or.inl (self_mem_reach c)))
              · exact Oc.2.2.2.2.2.2 c (List.mem_append.mpr (Or.inr (self_mem_reach c)))
            obtain ⟨vs₃, hemit, O⟩ := fs_var_finish Φ t y hncf hsup hsucc Oc hplaced
            refine ⟨_, vs₃, ?_, StepOut_relabel Φ t y (fun s => ?_) ?_ O⟩
            · rw [find_symbols, if_neg (by simp [hncf])]
              simp only [h₁, h₂, ok_bind]
              exact hemit
            · rw [reach, if_neg (by simp [hncf])]
              simp only [List.mem_append, List.mem_cons, List.mem_singleton,
                List.not_mem_nil, or_false]
              tauto
            · rw [fdVars, if_neg (by simp [hncf])]
      | mul a b =>
          by_cases hcon : (Symb.mul a b).is_constant = true
          · exact fs_const_finish Φ t y hcon hsucc hT
              (by rw [find_symbols, if_pos hcon]) (by rw [fdVars, if_pos hcon])
              (fun s => by rw [reach, if_pos hcon, List.mem_singleton])
          · have hncf : (Symb.mul a b).is_constant = false := by
              revert hcon
              cases (Symb.mul a b).is_constant <;> simp
            have hsup2 : a.supported = true ∧ b.supported = true := by
              simpa [Symb.supported, Bool.and_eq_true] using hsup
            obtain ⟨w, hw⟩ := Option.isSome_iff_exists.mp hsucc
            rw [dEval] at hw
            rcases Option.bind_eq_some.mp hw with ⟨va, hva, hw2⟩
            rcases Option.bind_eq_some.mp hw2 with ⟨vb, hvb, _⟩
            obtain ⟨cs₁, vs₁, h₁, O₁⟩ :=
              find_symbols_ok a cs vs hsup2.1 (by rw [hva]; rfl) hT
            obtain ⟨cs₂, vs₂, h₂, O₂⟩ :=
              find_symbols_ok b cs₁ vs₁ hsup2.2 (by rw [hvb]; rfl) O₁.1
            have Oc := StepOut_comp Φ t y O₁ O₂
            have hplaced : ∀ c ∈ (Symb.mul a b).childrenL, Placed c cs₂ vs₂ := by
              intro c hc
              rcases (by simpa [Symb.childrenL] using hc : c = a ∨ c = b) with rfl | rfl
              · exact Oc.2.2.2.2.2.2 c (List.mem_append.mpr (Or.inl (self_mem_reach c)))
              · exact Oc.2.2.2.2.2.2 c (List.mem_append.mpr (Or.inr (self_mem_reach c)))
            obtain ⟨vs₃, hemit, O⟩ := fs_var_finish Φ t y hncf hsup hsucc Oc hplaced
            refine ⟨_, vs₃, ?_, StepOut_relabel Φ t y (fun s => ?_) ?_ O⟩
            · rw [find_symbols, if_neg (by simp [hncf])]
              simp only [h₁, h₂, ok_bind]
              exact hemit
            · rw [reach, if_neg (by simp [hncf])]
              simp only [List.mem_append, List.mem_cons, List.mem_singleton,
                List.not_mem_nil, or_false]
              tauto
            · rw [fdVars, if_neg (by simp [hncf])]
      | div a b =>
          by_cases hcon : (Symb.div a b).is_constant = true
          · exact fs_const_finish Φ t y hcon hsucc hT
              (by rw [find_symbols, if_pos hcon]) (by rw [fdVars, if_pos hcon])
              (fun s => by rw [reach, if_pos hcon, List.mem_singleton])
          · have hncf : (Symb.div a b).is_constant = false := by
              revert hcon
              cases (Symb.div a b).is_constant <;> simp
            have hsup2 : a.supported = true ∧ b.supported = true := by
              simpa [Symb.supported, Bool.and_eq_true] using hsup
            obtain ⟨w, hw⟩ := Option.isSome_iff_exists.mp hsucc
            rw [dEval] at hw
            rcases Option.bind_eq_some.mp hw with ⟨va, hva, hw2⟩
            rcases Option.bind_eq_some.mp hw2 with ⟨vb, hvb, _⟩
            obtain ⟨cs₁, vs₁, h₁, O₁⟩ :=
              find_symbols_ok a cs vs hsup2.1 (by rw [hva]; rfl) hT
            obtain ⟨cs₂, vs₂, h₂, O₂⟩ :=
              find_symbols_ok b cs₁ vs₁ hsup2.2 (by rw [hvb]; rfl) O₁.1
            have Oc := StepOut_comp Φ t y O₁ O₂
            have hplaced : ∀ c ∈ (Symb.div a b).childrenL, Placed c cs₂ vs₂ := by
              intro c hc
              rcases (by simpa [Symb.childrenL] using hc : c = a ∨ c = b) with rfl | rfl
              · exact Oc.2.2.2.2.2.2 c (List.mem_append.mpr (Or.inl (self_mem_reach c)))
              · exact Oc.2.2.2.2.2.2 c (List.mem_append.mpr (Or.inr (self_mem_reach c)))
            obtain ⟨vs₃, hemit, O⟩ := fs_var_finish Φ t y hncf hsup hsucc Oc hplaced
            refine ⟨_, vs₃, ?_, StepOut_relabel Φ t y (fun s => ?_) ?_ O⟩
            · rw [find_symbols, if_neg (by simp [hncf])]
              simp only [h₁, h₂, ok_bind]
              exact hemit
            · rw [reach, if_neg (by simp [hncf])]
              simp only [List.mem_append, List.mem_cons, List.mem_singleton,
                List.not_mem_nil, or_false]
              tauto
            · rw [fdVars, if_neg (by simp [hncf])]
      | fn hf a =>
          by_cases hcon : (Symb.fn hf a).is_constant = true
          · exact fs_const_finish Φ t y hcon hsucc hT
              (by rw [find_symbols, if_pos hcon]) (by rw [fdVars, if_pos hcon])
              (fun s => by rw [reach, if_pos hcon, List.mem_singleton])
          · have hncf : (Symb.fn hf a).is_constant = false := by
              revert hcon
              cases (Symb.fn hf a).is_constant <;> simp
            have hsup2 : a.supported = true := by simpa [Symb.supported] using hsup
            obtain ⟨w, hw⟩ := Option.isSome_iff_exists.mp hsucc
            rw [dEval] at hw
            rcases Option.bind_eq_some.mp hw with ⟨va, hva, _⟩
            obtain ⟨cs₁, vs₁, h₁, O₁⟩ :=
              find_symbols_ok a cs vs hsup2 (by rw [hva]; rfl) hT
            have hplaced : ∀ c ∈ (Symb.fn hf a).childrenL, Placed c cs₁ vs₁ := by
              intro c hc
              obtain rfl : c = a := by simpa [Symb.childrenL] using hc
              exact O₁.2.2.2.2.2.2 c (self_mem_reach c)
            obtain ⟨vs₃, hemit, O⟩ := fs_var_finish Φ t y hncf hsup hsucc O₁ hplaced
            refine ⟨_, vs₃, ?_, StepOut_relabel Φ t y (fun s => ?_) ?_ O⟩
            · rw [find_symbols, if_neg (by simp [hncf])]
              simp only [h₁, ok_bind]
              exact hemit
            · rw [reach, if_neg (by simp [hncf])]
              simp only [List.mem_append, List.mem_cons, List.mem_singleton,
                List.not_mem_nil, or_false]
              tauto
            · rw [fdVars, if_neg (by simp [hncf])]
      | idx i a =>
          by_cases hcon : (Symb.idx i a).is_constant = true
          · exact fs_const_finish Φ t y hcon hsucc hT
              (by rw [find_symbols, if_pos hcon]) (by rw [fdVars, if_pos hcon])
              (fun s => by rw [reach, if_pos hcon, List.mem_singleton])
          · have hncf : (Symb.idx i a).is_constant = false := by
              revert hcon
              cases (Symb.idx i a).is_constant <;> simp
            have hsup2 : a.supported = true := by simpa [Symb.supported] using hsup
            obtain ⟨w, hw⟩ := Option.isSome_iff_exists.mp hsucc
            rw [dEval] at hw
            rcases Option.bind_eq_some.mp hw with ⟨va, hva, _⟩
            obtain ⟨cs₁, vs₁, h₁, O₁⟩ :=
              find_symbols_ok a cs vs hsup2 (by rw [hva]; rfl) hT
            have hplaced : ∀ c ∈ (Symb.idx i a).childrenL, Placed c cs₁ vs₁ := by
              intro c hc
              obtain rfl : c = a := by simpa [Symb.childrenL] using hc
              exact O₁.2.2.2.2.2.2 c (self_mem_reach c)
            obtain ⟨vs₃, hemit, O⟩ := fs_var_finish Φ t y hncf hsup hsucc O₁ hplaced
            refine ⟨_, vs₃, ?_, StepOut_relabel Φ t y (fun s => ?_) ?_ O⟩
            · rw [find_symbols, if_neg (by simp [hncf])]
              simp only [h₁, ok_bind]
              exact hemit
            · rw [reach, if_neg (by simp [hncf])]
              simp only [List.mem_append, List.mem_cons, List.mem_singleton,
                List.not_mem_nil, or_false]
              tauto
            · rw [fdVars, if_neg (by simp [hncf])]
      | un op a =>
          by_cases hcon : (Symb.un op a).is_constant = true
          · exact fs_const_finish Φ t y hcon hsucc hT
              (by rw [find_symbols, if_pos hcon]) (by rw [fdVars, if_pos hcon])
              (fun s => by rw [reach, if_pos hcon, List.mem_singleton])
          · have hncf : (Symb.un op a).is_constant = false := by
              revert hcon
              cases (Symb.un op a).is_constant <;> simp
            have hsup2 : a.supported = true := by simpa [Symb.supported] using hsup
            obtain ⟨w, hw⟩ := Option.isSome_iff_exists.mp hsucc
            rw [dEval] at hw
            rcases Option.bind_eq_some.mp hw with ⟨va, hva, _⟩
            obtain ⟨cs₁, vs₁, h₁, O₁⟩ :=
              find_symbols_ok a cs vs hsup2 (by rw [hva]; rfl) hT
            have hplaced : ∀ c ∈ (Symb.un op a).childrenL, Placed c cs₁ vs₁ := by
              intro c hc
              obtain rfl : c = a := by simpa [Symb.childrenL] using hc
              exact O₁.2.2.2.2.2.2 c (self_mem_reach c)
            obtain ⟨vs₃, hemit, O⟩ := fs_var_finish Φ t y hncf hsup hsucc O₁ hplaced
            refine ⟨_, vs₃, ?_, StepOut_relabel Φ t y (fun s => ?_) ?_ O⟩
            · rw [find_symbols, if_neg (by simp [hncf])]
              simp only [h₁, ok_bind]
              exact hemit
            · rw [reach, if_neg (by simp [hncf])]
              simp only [List.mem_append, List.mem_cons, List.mem_singleton,
                List.not_mem_nil, or_false]
              tauto
            · rw [fdVars, if_neg (by simp [hncf])]
      | npConcat l =>
          by_cases hcon : (Symb.npConcat l).is_constant = true
          · exact fs_const_finish Φ t y hcon hsucc hT
              (by rw [find_symbols, if_pos hcon]) (by rw [fdVars, if_pos hcon])
              (fun s => by rw [reach, if_pos hcon, List.mem_singleton])
          · have hncf : (Symb.npConcat l).is_constant = false := by
              revert hcon
              cases (Symb.npConcat l).is_constant <;> simp
            have hsup2 : SymbList.supported l = true := by
              simpa [Symb.supported] using hsup
            obtain ⟨w, hw⟩ := Option.isSome_iff_exists.mp hsucc
            rw [dEval] at hw
            rcases Option.bind_eq_some.mp hw with ⟨vals, hvals, _⟩
            obtain ⟨cs₁, vs₁, h₁, O₁⟩ :=
              find_symbols_list_ok l cs vs hsup2 (by rw [hvals]; rfl) hT
            have hplaced : ∀ c ∈ (Symb.npConcat l).childrenL, Placed c cs₁ vs₁ := by
              intro c hc
              refine O₁.2.2.2.2.2.2 c (mem_reachList ?_)
              simpa [Symb.childrenL] using hc
            obtain ⟨vs₃, hemit, O⟩ := fs_var_finish Φ t y hncf hsup hsucc O₁ hplaced
            refine ⟨_, vs₃, ?_, StepOut_relabel Φ t y (fun s => ?_) ?_ O⟩
            · rw [find_symbols, if_neg (by simp [hncf])]
              simp only [h₁, ok_bind]
              exact hemit
            · rw [reach, if_neg (by simp [hncf])]
              simp only [List.mem_append, List.mem_cons, List.mem_singleton,
                List.not_mem_nil, or_false]
              tauto
            · rw [fdVars, if_neg (by simp [hncf])]
      | spStack l =>
          by_cases hcon : (Symb.spStack l).is_constant = true
          · exact fs_const_finish Φ t y hcon hsucc hT
              (by rw [find_symbols, if_pos hcon]) (by rw [fdVars, if_pos hcon])
              (fun s => by rw [reach, if_pos hcon, List.mem_singleton])
          · have hncf : (Symb.spStack l).is_constant = false := by
              revert hcon
              cases (Symb.spStack l).is_constant <;> simp
            have hsup2 : SymbList.supported l = true := by
              simpa [Symb.supported] using hsup
            obtain ⟨w, hw⟩ := Option.isSome_iff_exists.mp hsucc
            rw [dEval] at hw
            rcases Option.bind_eq_some.mp hw with ⟨vals, hvals, _⟩
            obtain ⟨cs₁, vs₁, h₁, O₁⟩ :=
              find_symbols_list_ok l cs vs hsup2 (by rw [hvals]; rfl) hT
            have hplaced : ∀ c ∈ (Symb.spStack l).childrenL, Placed c cs₁ vs₁ := by
              intro c hc
              refine O₁.2.2.2.2.2.2 c (mem_reachList ?_)
              simpa [Symb.childrenL] using hc
            obtain ⟨vs₃, hemit, O⟩ := fs_var_finish Φ t y hncf hsup hsucc O₁ hplaced
            refine ⟨_, vs₃, ?_, StepOut_relabel Φ t y (fun s => ?_) ?_ O⟩
            · rw [find_symbols, if_neg (by simp [hncf])]
              simp only [h₁, ok_bind]
              exact hemit
            · rw [reach, if_neg (by simp [hncf])]
              simp only [List.mem_append, List.mem_cons, List.mem_singleton,
                List.not_mem_nil, or_false]
              tauto
            · rw [fdVars, if_neg (by simp [hncf])]
      | domConcat l csl fsl =>
          by_cases hcon : (Symb.domConcat l csl fsl).is_constant = true
          · exact fs_const_finish Φ t y hcon hsucc hT
              (by rw [find_symbols, if_pos hcon]) (by rw [fdVars, if_pos hcon])
              (fun s => by rw [reach, if_pos hcon, List.mem_singleton])
          · have hncf : (Symb.domConcat l csl fsl).is_constant = false := by
              revert hcon
              cases (Symb.domConcat l csl fsl).is_constant <;> simp
            have hsup2 : SymbList.supported l = true := by
              rw [Symb.supported, Bool.and_eq_true] at hsup
              exact hsup.2
            obtain ⟨w, hw⟩ := Option.isSome_iff_exists.mp hsucc
            rw [dEval] at hw
            rcases Option.bind_eq_some.mp hw with ⟨vals, hvals, _⟩
            obtain ⟨cs₁, vs₁, h₁, O₁⟩ :=
              find_symbols_list_ok l cs vs hsup2 (by rw [hvals]; rfl) hT
            have hplaced : ∀ c ∈ (Symb.domConcat l csl fsl).childrenL,
                Placed c cs₁ vs₁ := by
              intro c hc
              refine O₁.2.2.2.2.2.2 c (mem_reachList ?_)
              simpa [Symb.childrenL] using hc
            obtain ⟨vs₃, hemit, O⟩ := fs_var_finish Φ t y hncf hsup hsucc O₁ hplaced
            refine ⟨_, vs₃, ?_, StepOut_relabel Φ t y (fun s => ?_) ?_ O⟩
            · rw [find_symbols, if_neg (by simp [hncf])]
              simp only [h₁, ok_bind]
              exact hemit
            · rw [reach, if_neg (by simp [hncf])]
              simp only [List.mem_append, List.mem_cons, List.mem_singleton,
                List.not_mem_nil, or_false]
              tauto
            · rw [fdVars, if_neg (by simp [hncf])]
      | stateVector a b =>
          have hncf : (Symb.stateVector a b).is_constant = false := rfl
          have hplaced : ∀ c ∈ (Symb.stateVector a b).childrenL, Placed c cs vs := by
            intro c hc
            simp [Symb.childrenL] at hc
          obtain ⟨vs₃, hemit, O⟩ :=
            fs_var_finish Φ t y hncf hsup hsucc (StepOut_refl Φ t y hT) hplaced
          refine ⟨_, vs₃, ?_, StepOut_relabel Φ t y (fun s => ?_) ?_ O⟩
          · rw [find_symbols, if_neg (by simp [hncf])]
            exact hemit
          · rw [reach]
            simp
          · rw [fdVars]
      | time =>
          have hncf : (Symb.time).is_constant = false := rfl
          have hplaced : ∀ c ∈ (Symb.time).childrenL, Placed c cs vs := by
            intro c hc
            simp [Symb.childrenL] at hc
          obtain ⟨vs₃, hemit, O⟩ :=
            fs_var_finish Φ t y hncf hsup hsucc (StepOut_refl Φ t y hT) hplaced
          refine ⟨_, vs₃, ?_, StepOut_relabel Φ t y (fun s => ?_) ?_ O⟩
          · rw [find_symbols, if_neg (by simp [hncf])]
            exact hemit
          · rw [reach]
            simp
          · rw [fdVars]
      | concatOther k l => simp [Symb.supported] at hsup
      | unsupported k l => simp [Symb.supported] at hsup
/-- List version of `find_symbols_ok`. -/
theorem find_symbols_list_ok :
    ∀ (l : SymbList) (cs : ODV) (vs : ODE), SymbList.supported l = true →
      (dEvalList Φ t y l).isSome → TablesOK Φ t y cs vs →
      ∃ cs' vs', find_symbols_list Φ l cs vs = .ok (cs', vs') ∧
        StepOut Φ t y (reachList l) (fdVarsList l) cs vs cs' vs'
  | .nil, cs, vs, _, _, hT =>
      ⟨cs, vs, by rw [find_symbols_list],
        StepOut_relabel Φ t y (fun s => by rw [reachList]) (by rw [fdVarsList])
          (StepOut_refl Φ t y hT)⟩
  | .cons c rest, cs, vs, hsup, hsucc, hT => by
      have hsup2 : c.supported = true ∧ SymbList.supported rest = true := by
        simpa [SymbList.supported, Bool.and_eq_true] using hsup
      obtain ⟨ws, hws⟩ := Option.isSome_iff_exists.mp hsucc
      rw [dEvalList] at hws
      rcases Option.bind_eq_some.mp hws with ⟨v, hv, hws2⟩
      rcases Option.map_eq_some'.mp hws2 with ⟨vs0, hvs0, _⟩
      obtain ⟨cs₁, vs₁, h₁, O₁⟩ := find_symbols_ok c cs vs hsup2.1 (by rw [hv]; rfl) hT
      obtain ⟨cs₂, vs₂, h₂, O₂⟩ :=
        find_symbols_list_ok rest cs₁ vs₁ hsup2.2 (by rw [hvs0]; rfl) O₁.1
      refine ⟨cs₂, vs₂, ?_, StepOut_relabel Φ t y (fun s => ?_) ?_
        (StepOut_comp Φ t y O₁ O₂)⟩
      · rw [find_symbols_list]
        simp only [h₁, ok_bind]
        exact h₂
      · rw [reachList]
      · rw [fdVarsList]
end

end MainTheorem

/-! ## Soundness of the compiled artifact -/

theorem alook_constAttrs {cs : ODV} {r : Ref} {v : Value}
    (h : alook (cs.map (fun p => ((p.1, true), p.2))) r = some v) :
    r.2 = true ∧ (r.1, v) ∈ cs := by
  induction cs with
  | nil => simp [alook] at h
  | cons p rest ih =>
      rw [List.map_cons, alook] at h
      by_cases hr : r = (p.1, true)
      · rw [if_pos hr] at h
        obtain rfl := Option.some.inj h
        subst hr
        exact ⟨rfl, List.mem_cons_self _ _⟩
      · rw [if_neg hr] at h
        obtain ⟨h1, h2⟩ := ih h
        exact ⟨h1, List.mem_cons_of_mem _ h2⟩

theorem alook_constAttrs_isSome {cs : ODV} {k : Symb} (h : k ∈ keysOf cs) :
    (alook (cs.map (fun p => ((p.1, true), p.2))) (k, true)).isSome := by
  induction cs with
  | nil => simp [keysOf] at h
  | cons p rest ih =>
      rw [List.map_cons, alook]
      by_cases hk : (k, true) = (p.1, true)
      · rw [if_pos hk]
        rfl
      · rw [if_neg hk]
        have h2 : k ∈ keysOf rest := by
          rw [keysOf, List.map_cons] at h
          rcases List.mem_cons.mp h with h1 | h1
          · exact absurd (by rw [h1]) hk
          · exact h1
        exact ih h2

/-- The core run of a compiled artifact: compilation succeeds, the program
is dependency-ordered, its execution from the embedded constants succeeds,
and the result handle holds the direct evaluation of the root. -/
theorem compile_core (Φ : Nat → Value → Option Value) (sym : Symb) (t : Option ℚ)
    (y' : Option Mat) {v : Value} (hsup : sym.supported = true)
    (hv : dEval Φ t y' sym = some v) :
    ∃ cs vs env', find_symbols Φ sym [] [] = .ok (cs, vs) ∧
      DepOK (constRefs cs) vs ∧
      execProg Φ t y' (cs.map (fun p => ((p.1, true), p.2))) vs = some env' ∧
      alook env' (sym, sym.is_constant) = some v ∧
      (sym.is_constant = false → (sym, false) ∈ varKeys vs) ∧
      (sym.is_constant = true → (sym, true) ∈ constRefs cs) := by
  have hT0 : TablesOK Φ t y' [] [] := by
    refine ⟨by simp, by simp, by simp [keysOf], by simp [keysOf], ?_⟩
    rw [DepOK]
    trivial
  obtain ⟨cs, vs, hfs, O⟩ := find_symbols_ok Φ t y' sym [] [] hsup (by rw [hv]; rfl) hT0
  obtain ⟨⟨hcsOK, hvsOK, hndc, hndv, hdep⟩, _, _, _, _, _, hpl⟩ := O
  have hplaced := hpl sym (self_mem_reach sym)
  have henv0 : EnvOK Φ t y' (cs.map (fun p => ((p.1, true), p.2))) := by
    intro r v' hr
    obtain ⟨s, b⟩ := r
    obtain ⟨hb, hm⟩ := alook_constAttrs hr
    obtain rfl : b = true := hb
    simpa only [RefOK] using hcsOK _ hm
  have hav0 : ∀ r ∈ constRefs cs,
      (alook (cs.map (fun p => ((p.1, true), p.2))) r).isSome := by
    intro r hr
    rw [constRefs] at hr
    obtain ⟨k, hk, rfl⟩ := List.mem_map.mp hr
    exact alook_constAttrs_isSome hk
  obtain ⟨env', hrun, henv', hpres, hbound⟩ :=
    execProg_sound Φ t y' vs (cs.map (fun p => ((p.1, true), p.2))) (constRefs cs)
      hdep hvsOK hav0 henv0
  refine ⟨cs, vs, env', hfs, hdep, hrun, ?_, ?_, ?_⟩
  · cases hcon : sym.is_constant
    · have hmem : sym ∈ keysOf vs := hplaced.2.1 hcon
      obtain ⟨e, he⟩ := exists_mem_of_mem_keysOf hmem
      have hb := hbound (sym, e) he
      obtain ⟨v', hv'⟩ := Option.isSome_iff_exists.mp hb
      have := henv' _ _ hv'
      simp only [RefOK] at this
      rw [hv] at this
      rw [hv', Option.some.inj this]
    · have hmem : sym ∈ keysOf cs := hplaced.1 hcon
      have hb := hpres _ (alook_constAttrs_isSome hmem)
      obtain ⟨v', hv'⟩ := Option.isSome_iff_exists.mp hb
      have := henv' _ _ hv'
      simp only [RefOK] at this
      rcases this with ⟨_, hval⟩ | ⟨hfalse, _⟩
      · rw [dEval_of_is_constant Φ t y' hcon, hval] at hv
        rw [hv', Option.some.inj hv]
      · rw [hcon] at hfalse
        exact absurd hfalse (by simp)
  · intro hcon
    have hmem : sym ∈ keysOf vs := hplaced.2.1 hcon
    obtain ⟨p, hp, hp1⟩ := List.mem_map.mp hmem
    have : (fun q : Symb × PyExpr => (q.1, false)) p = (sym, false) := by simp [hp1]
    rw [varKeys, ← this]
    exact List.mem_map_of_mem _ hp
  · intro hcon
    have hmem : sym ∈ keysOf cs := hplaced.1 hcon
    rw [constRefs]
    exact List.mem_map_of_mem _ hmem

/-- C1.  For every supported expression graph and every valid (time, state)
input pair — a pair on which direct recursive evaluation of the graph
succeeds with value `v` — compilation succeeds and the compiled artifact's
`evaluate(t, y)` returns exactly that value `v` (shape and type included,
since `Value` carries them). -/
theorem evaluator_matches_direct_eval (Φ : Nat → Value → Option Value) (sym : Symb)
    (t : Option ℚ) (y : Option YArg) (v : Value)
    (hsup : sym.supported = true)
    (hv : dEval Φ t (reshapeY y) sym = some v) :
    ∃ ev ev', compile Φ sym = .ok ev ∧ ev.evaluate Φ t y = some (v, ev') := by
  obtain ⟨cs, vs, env', hfs, _, hrun, hres, _, _⟩ :=
    compile_core Φ sym t (reshapeY y) hsup hv
  refine ⟨_, { attrs := env', prog := vs, result_var := (sym, sym.is_constant) },
    by rw [compile, hfs]; rfl, ?_⟩
  rw [Evaluator.evaluate]
  simp only [hrun, Option.some_bind, hres, Option.map_some]
  rfl

/-! ## Staleness of leftover attributes does not affect later calls -/

/-- An instruction's result depends only on the bindings of its references. -/
theorem evalPyExpr_congr (Φ : Nat → Value → Option Value) (t : Option ℚ)
    (y : Option Mat) {e : PyExpr} {env₁ env₂ : Env}
    (h : ∀ r ∈ e.refs, alook env₁ r = alook env₂ r) :
    evalPyExpr Φ t y env₁ e = evalPyExpr Φ t y env₂ e := by
  cases e with
  | ref r => exact h r (by simp [PyExpr.refs])
  | binG op a b =>
      rw [evalPyExpr, evalPyExpr, h a (by simp [PyExpr.refs]), h b (by simp [PyExpr.refs])]
  | dispatchMul a b =>
      rw [evalPyExpr, evalPyExpr, h a (by simp [PyExpr.refs]), h b (by simp [PyExpr.refs])]
  | dispatchDiv a b =>
      rw [evalPyExpr, evalPyExpr, h a (by simp [PyExpr.refs]), h b (by simp [PyExpr.refs])]
  | call f a =>
      rw [evalPyExpr, evalPyExpr, h f (by simp [PyExpr.refs]), h a (by simp [PyExpr.refs])]
  | index a i => rw [evalPyExpr, evalPyExpr, h a (by simp [PyExpr.refs])]
  | unG op a => rw [evalPyExpr, evalPyExpr, h a (by simp [PyExpr.refs])]
  | npConcat rs =>
      rw [evalPyExpr, evalPyExpr, omap_congr (fun r hr => h r (by simpa [PyExpr.refs] using hr))]
  | spStack rs =>
      rw [evalPyExpr, evalPyExpr, omap_congr (fun r hr => h r (by simpa [PyExpr.refs] using hr))]
  | npConcatSlices parts =>
      rw [evalPyExpr, evalPyExpr]
      rw [omap_congr (fun p hp => by
        rw [h p.1 (List.mem_map_of_mem (fun q => q.1) hp)])]
  | yRef a b => rfl
  | tRef => rfl
  | blank => rfl

/-- Execution of a dependency-ordered program depends only on the bindings
of the externally available references: a successful run from one
environment transfers to any environment agreeing on those references, with
the same bindings on everything the program can mention. -/
theorem execProg_agree (Φ : Nat → Value → Option Value) (t : Option ℚ) (y : Option Mat) :
    ∀ (vs : List (Symb × PyExpr)) (avail : List Ref) (env₁ env₂ env₁' : Env),
      DepOK avail vs →
      (∀ r ∈ avail, alook env₁ r = alook env₂ r) →
      execProg Φ t y env₁ vs = some env₁' →
      ∃ env₂', execProg Φ t y env₂ vs = some env₂' ∧
        ∀ r, r ∈ avail ∨ r ∈ varKeys vs → alook env₁' r = alook env₂' r
  | [], avail, env₁, env₂, env₁', _, hag, hrun => by
      rw [execProg] at hrun
      obtain rfl := Option.some.inj hrun
      refine ⟨env₂, rfl, ?_⟩
      intro r hr
      rcases hr with hr | hr
      · exact hag r hr
      · simp [varKeys] at hr
  | (s, e) :: rest, avail, env₁, env₂, env₁', hdep, hag, hrun => by
      rw [DepOK] at hdep
      rw [execProg] at hrun
      rcases Option.bind_eq_some.mp hrun with ⟨w, hw, hrun2⟩
      have hw2 : evalPyExpr Φ t y env₂ e = some w := by
        rw [← evalPyExpr_congr Φ t y (fun r hr => hag r (hdep.1 r hr))]
        exact hw
      have hag2 : ∀ r ∈ (s, false) :: avail,
          alook (odInsert env₁ (s, false) w) r = alook (odInsert env₂ (s, false) w) r := by
        intro r hr
        rcases List.mem_cons.mp hr with rfl | hr
        · rw [alook_odInsert_self, alook_odInsert_self]
        · by_cases hrs : r = (s, false)
          · subst hrs
            rw [alook_odInsert_self, alook_odInsert_self]
          · rw [alook_odInsert_of_ne w hrs, alook_odInsert_of_ne w hrs]
            exact hag r hr
      obtain ⟨env₂', hrun2', hag'⟩ := execProg_agree Φ t y rest ((s, false) :: avail)
        (odInsert env₁ (s, false) w) (odInsert env₂ (s, false) w) env₁' hdep.2 hag2 hrun2
      refine ⟨env₂', by rw [execProg, hw2, Option.some_bind, hrun2'], ?_⟩
      intro r hr
      refine hag' r ?_
      rcases hr with hr | hr
      · exact Or.inl (List.mem_cons_of_mem _ hr)
      · rw [varKeys, List.map_cons] at hr
        rcases List.mem_cons.mp hr with rfl | hr
        · exact Or.inl (List.mem_cons_self _ _)
        · exact Or.inr hr

/-- Program execution writes only `var_` attributes: every `const_`
reference keeps its binding. -/
theorem execProg_preserves_true (Φ : Nat → Value → Option Value) (t : Option ℚ)
    (y : Option Mat) :
    ∀ (vs : List (Symb × PyExpr)) (env env' : Env),
      execProg Φ t y env vs = some env' → ∀ r : Ref, r.2 = true →
        alook env' r = alook env r
  | [], env, env', hrun, r, _ => by
      rw [execProg] at hrun
      obtain rfl := Option.some.inj hrun
      rfl
  | (s, e) :: rest, env, env', hrun, r, hr => by
      rw [execProg] at hrun
      rcases Option.bind_eq_some.mp hrun with ⟨w, _, hrun2⟩
      rw [execProg_preserves_true Φ t y rest _ env' hrun2 r hr]
      refine alook_odInsert_of_ne w ?_
      intro hrs
      rw [hrs] at hr
      simp at hr

/-- C2 (amended).  `evaluate` does mutate the artifact — each generated
intermediate value is stored as a `self.var_xxx` attribute on it — but
because the program is dependency-ordered, every such attribute is
reassigned before it is read, so the artifact returned by one call still
computes the correct value on any later inputs: no state influences a later
call's result. -/
theorem evaluate_no_state_between_calls (Φ : Nat → Value → Option Value) (sym : Symb)
    (t₀ : Option ℚ) (y₀ : Option YArg) (t : Option ℚ) (y : Option YArg)
    (v₀ v : Value) (ev ev₁ : Evaluator)
    (hsup : sym.supported = true)
    (hcomp : compile Φ sym = .ok ev)
    (h₁ : ev.evaluate Φ t₀ y₀ = some (v₀, ev₁))
    (hv : dEval Φ t (reshapeY y) sym = some v) :
    ∃ ev₂, ev₁.evaluate Φ t y = some (v, ev₂) := by
  obtain ⟨cs, vs, env', hfs, hdep, hrun, hres, hvk, hck⟩ :=
    compile_core Φ sym t (reshapeY y) hsup hv
  have hev : ev = { attrs := cs.map (fun p => ((p.1, true), p.2)),
                    prog := vs,
                    result_var := (sym, sym.is_constant) } := by
    rw [compile, hfs] at hcomp
    exact (Except.ok.inj hcomp).symm
  subst hev
  rw [Evaluator.evaluate] at h₁
  rcases Option.bind_eq_some.mp h₁ with ⟨envA, hrunA, h₁2⟩
  rcases Option.map_eq_some'.mp h₁2 with ⟨vA, hvA, hev₁⟩
  have hev₁' : ev₁ = { attrs := envA,
                       prog := vs,
                       result_var := (sym, sym.is_constant) } := by
    have h2 := congrArg Prod.snd hev₁
    exact h2.symm
  subst hev₁'
  have hagree : ∀ r ∈ constRefs cs,
      alook (cs.map (fun p => ((p.1, true), p.2))) r = alook envA r := by
    intro r hr
    have hr2 : r.2 = true := by
      rw [constRefs] at hr
      obtain ⟨k, _, rfl⟩ := List.mem_map.mp hr
      rfl
    exact (execProg_preserves_true Φ t₀ (reshapeY y₀) vs _ envA hrunA r hr2).symm
  obtain ⟨envB, hrunB, hagB⟩ := execProg_agree Φ t (reshapeY y) vs (constRefs cs)
    (cs.map (fun p => ((p.1, true), p.2))) envA env' hdep hagree hrun
  refine ⟨{ attrs := envB, prog := vs, result_var := (sym, sym.is_constant) }, ?_⟩
  rw [Evaluator.evaluate]
  simp only [hrunB, Option.some_bind]
  have hresB : alook envB (sym, sym.is_constant) = some v := by
    rw [← hagB (sym, sym.is_constant) ?_, hres]
    cases hcon : sym.is_constant
    · exact Or.inr (hvk hcon)
    · exact Or.inl (hck hcon)
  rw [hresB]
  rfl

/-! ## Placement, sharing and ordering of the compiled tables -/

/-- C3 (amended).  After linearization of a supported graph every reachable
node identity appears in at least one of the two tables, and it appears in
both exactly when the node is a non-constant `Function` node — whose handle
goes to the constant table while its call instruction goes to the
instruction program; every other reachable identity appears in exactly one
table, and no unreachable identity appears at all. -/
theorem reachable_identity_placement (Φ : Nat → Value → Option Value) (sym : Symb)
    (t : Option ℚ) (y' : Option Mat) (v : Value)
    (hsup : sym.supported = true) (hv : dEval Φ t y' sym = some v) :
    ∃ cs vs, find_symbols Φ sym [] [] = .ok (cs, vs) ∧
      (∀ s ∈ reach sym, (s ∈ keysOf cs ∨ s ∈ keysOf vs) ∧
        ((s ∈ keysOf cs ∧ s ∈ keysOf vs) ↔
          (s.is_constant = false ∧ ∃ hf a, s = Symb.fn hf a))) ∧
      (∀ k ∈ keysOf cs, k ∈ reach sym) ∧ (∀ k ∈ keysOf vs, k ∈ reach sym) := by
  have hT0 : TablesOK Φ t y' [] [] := by
    refine ⟨by simp, by simp, by simp [keysOf], by simp [keysOf], ?_⟩
    rw [DepOK]
    trivial
  obtain ⟨cs, vs, hfs, O⟩ := find_symbols_ok Φ t y' sym [] [] hsup (by rw [hv]; rfl) hT0
  obtain ⟨⟨hcsOK, hvsOK, _, _, _⟩, _, _, _, hsubc, hsubv, hpl⟩ := O
  refine ⟨cs, vs, hfs, ?_, ?_, ?_⟩
  · intro s hs
    have hp := hpl s hs
    constructor
    · cases hcon : s.is_constant
      · exact Or.inr (hp.2.1 hcon)
      · exact Or.inl (hp.1 hcon)
    · constructor
      · rintro ⟨hcm, hvm⟩
        obtain ⟨vc, hvc⟩ := exists_mem_of_mem_keysOf hcm
        obtain ⟨e, he⟩ := exists_mem_of_mem_keysOf hvm
        have hnc := (hvsOK _ he).1
        refine ⟨hnc, ?_⟩
        rcases hcsOK _ hvc with ⟨hc, _⟩ | ⟨_, hf, a, heq, _⟩
        · rw [hnc] at hc
          exact absurd hc (by simp)
        · exact ⟨hf, a, heq⟩
      · rintro ⟨hnc, hf, a, heq⟩
        exact ⟨hp.2.2 hf a heq hnc, hp.2.1 hnc⟩
  · intro k hk
    rcases hsubc k hk with hk' | hk'
    · simp [keysOf] at hk'
    · exact hk'
  · intro k hk
    rcases hsubv k hk with hk' | hk'
    · simp [keysOf] at hk'
    · exact hk'

/-- C4.  Structurally identical sub-expressions share one identity and one
instruction: the instruction program's keys are duplicate-free (a subtree
appearing N times is compiled exactly once), they appear in first-discovery
post-order (`fdVars`, where a re-encountered identity keeps its original
position), and the instruction stored under an identity is the one
generated from that identity alone — so every usage references that single
entry. -/
theorem shared_subtrees_compiled_once (Φ : Nat → Value → Option Value) (sym : Symb)
    (t : Option ℚ) (y' : Option Mat) (v : Value)
    (hsup : sym.supported = true) (hv : dEval Φ t y' sym = some v) :
    ∃ cs vs, find_symbols Φ sym [] [] = .ok (cs, vs) ∧
      (keysOf vs).Nodup ∧ keysOf vs = fdVars sym [] ∧
      (∀ p ∈ vs, instrOf p.1 = .ok p.2) := by
  have hT0 : TablesOK Φ t y' [] [] := by
    refine ⟨by simp, by simp, by simp [keysOf], by simp [keysOf], ?_⟩
    rw [DepOK]
    trivial
  obtain ⟨cs, vs, hfs, O⟩ := find_symbols_ok Φ t y' sym [] [] hsup (by rw [hv]; rfl) hT0
  obtain ⟨⟨_, hvsOK, _, hndv, _⟩, _, _, hfd, _, _, _⟩ := O
  exact ⟨cs, vs, hfs, hndv, by simpa [keysOf] using hfd, fun p hp => (hvsOK p hp).2.1⟩

/-- C5.  The instruction program is an ordered sequence of (identity,
instruction) pairs covering exactly the non-constant reachable nodes, in
strict dependency order: every reference an instruction reads is either a
constant-table entry or a variable emitted at an earlier position
(`DepOK`); and compilation is deterministic — the same graph always yields
the same artifact, with result handle
`id_to_python_variable(symbol.id, symbol.is_constant())`. -/
theorem program_dependency_order (Φ : Nat → Value → Option Value) (sym : Symb)
    (t : Option ℚ) (y' : Option Mat) (v : Value)
    (hsup : sym.supported = true) (hv : dEval Φ t y' sym = some v) :
    ∃ cs vs, find_symbols Φ sym [] [] = .ok (cs, vs) ∧
      DepOK (constRefs cs) vs ∧
      (∀ p ∈ vs, p.1.is_constant = false) ∧
      (∀ s ∈ reach sym, s.is_constant = false → s ∈ keysOf vs) ∧
      (∀ ev, compile Φ sym = .ok ev → ev.result_var = (sym, sym.is_constant)) ∧
      (∀ ev ev', compile Φ sym = .ok ev → compile Φ sym = .ok ev' → ev = ev') := by
  have hT0 : TablesOK Φ t y' [] [] := by
    refine ⟨by simp, by simp, by simp [keysOf], by simp [keysOf], ?_⟩
    rw [DepOK]
    trivial
  obtain ⟨cs, vs, hfs, O⟩ := find_symbols_ok Φ t y' sym [] [] hsup (by rw [hv]; rfl) hT0
  obtain ⟨⟨_, hvsOK, _, _, hdep⟩, _, _, _, _, _, hpl⟩ := O
  refine ⟨cs, vs, hfs, hdep, fun p hp => (hvsOK p hp).1,
    fun s hs hnc => (hpl s hs).2.1 hnc, ?_, ?_⟩
  · intro ev hev
    rw [compile, hfs] at hev
    rw [← Except.ok.inj hev]
  · intro ev ev' hev hev'
    rw [hev] at hev'
    exact Except.ok.inj hev'

/-! ## The concatenation codegen rules -/

/-- Elementwise multiplication of matrices is commutative (used to relate
the sparse receiver dispatch, which swaps the operands, to the plain dense
product). -/
theorem ewise_mul_comm (m₁ m₂ : Mat) :
    ewise (fun a b => a * b) m₂ m₁ = ewise (fun a b => a * b) m₁ m₂ := by
  rw [ewise, ewise]
  by_cases h : rowShape m₁ = rowShape m₂
  · rw [if_pos h, if_pos h.symm]
    rw [List.zipWith_comm_of_comm _
      (fun r s => List.zipWith_comm_of_comm _ mul_comm r s) m₂ m₁]
  · rw [if_neg (fun hh => h hh.symm), if_neg h]

/-- C6.  For a `DomainConcatenation` node with more than one child the
generated instruction concatenates the per-(child, sub-domain, slice)
expressions sorted by the sub-domain's start position in the final output,
ascending (`Pairwise ≤` on the final starts), and the sorted records are a
permutation of the records in declaration order — so the output order is
independent of the order in which the children are declared, and every
emitted part references one of the children. -/
theorem domConcat_sorted_by_final_start (c₁ c₂ : Symb) (rest : SymbList)
    (csl : List DomSlices) (fsl : DomSlices)
    (hcov : domCovered csl fsl = true) :
    ∃ tr, domTriples (((SymbList.cons c₁ (SymbList.cons c₂ rest)).toList).map cref)
        csl fsl = some tr ∧
      instrOf (.domConcat (.cons c₁ (.cons c₂ rest)) csl fsl) =
        .ok (.npConcatSlices ((sortByKey tr).map (fun q => (q.2.1, q.2.2.1, q.2.2.2)))) ∧
      (sortByKey tr).Pairwise (fun a b => a.1 ≤ b.1) ∧
      List.Perm (sortByKey tr) tr ∧
      ∀ q ∈ sortByKey tr,
        q.2.1 ∈ ((SymbList.cons c₁ (SymbList.cons c₂ rest)).toList).map cref := by
  obtain ⟨tr, htr⟩ := Option.isSome_iff_exists.mp (domTriples_isSome_of_covered hcov
    (((SymbList.cons c₁ (SymbList.cons c₂ rest)).toList).map cref))
  refine ⟨tr, htr, ?_, pairwise_sortByKey tr, sortByKey_perm tr, ?_⟩
  · rw [instrOf, htr]
    simp [SymbList.toList]
  · intro q hq
    exact domTriples_payload_mem htr q ((sortByKey_perm tr).mem_iff.mp hq)

/-! ## The multiplication and division dispatch -/

/-- C7.  A `Multiplication` node compiles to the three-way runtime dispatch
and a `Division` node to the two-way dispatch; the dispatch checks the left
operand first: a sparse left operand is the receiver of the sparse-aware
elementwise multiply (also when both operands are sparse), a sparse right
operand is the receiver otherwise, and the plain product operator is used
when neither is sparse; division uses multiply-by-reciprocal when the left
operand is sparse and the plain division operator otherwise; and the
dispatched product always equals the equivalent dense-only multiply of the
densified operands. -/
theorem multiply_divide_sparse_dispatch :
    (∀ a b : Symb, instrOf (.mul a b) = .ok (.dispatchMul (cref a) (cref b))) ∧
    (∀ a b : Symb, instrOf (.div a b) = .ok (.dispatchDiv (cref a) (cref b))) ∧
    (∀ x y : Value, x.issparse = true → dispatchMulV x y = spMultiply x y) ∧
    (∀ x y : Value, x.issparse = false → y.issparse = true →
      dispatchMulV x y = spMultiply y x) ∧
    (∀ x y : Value, x.issparse = false → y.issparse = false →
      dispatchMulV x y = numMul x y) ∧
    (∀ x y : Value, x.issparse = true →
      dispatchDivV x y = (recipV y).bind (spMultiply x)) ∧
    (∀ x y : Value, x.issparse = false → dispatchDivV x y = numDiv x y) ∧
    (∀ x y : Value,
      (dispatchMulV x y).map Value.toDense = numMul x.toDense y.toDense) := by
  refine ⟨fun a b => rfl, fun a b => rfl, ?_, ?_, ?_, ?_, ?_, ?_⟩
  · intro x y hx
    rw [dispatchMulV, if_pos hx]
  · intro x y hx hy
    rw [dispatchMulV, if_neg (by simp [hx]), if_pos hy]
  · intro x y hx hy
    rw [dispatchMulV, if_neg (by simp [hx]), if_neg (by simp [hy])]
  · intro x y hx
    rw [dispatchDivV, if_pos hx]
  · intro x y hx
    rw [dispatchDivV, if_neg (by simp [hx])]
  · intro x y
    cases x with
    | scalar p =>
        cases y with
        | scalar q => rfl
        | arr sp m => cases sp <;> rfl
        | funv h => rfl
    | arr sp₁ m₁ =>
        cases y with
        | scalar q => cases sp₁ <;> rfl
        | funv h₂ => cases sp₁ <;> rfl
        | arr sp₂ m₂ =>
            cases sp₁ <;> cases sp₂
            · cases he : ewise (fun a b => a * b) m₁ m₂ <;>
                simp [dispatchMulV, numMul, Value.issparse, Value.toDense, he]
            · rw [show dispatchMulV (Value.arr false m₁) (Value.arr true m₂)
                    = spMultiply (Value.arr true m₂) (Value.arr false m₁) from rfl]
              rw [show spMultiply (Value.arr true m₂) (Value.arr false m₁)
                    = (ewise (fun a b => a * b) m₂ m₁).map (Value.arr true) from rfl]
              rw [ewise_mul_comm m₁ m₂]
              cases he : ewise (fun a b => a * b) m₁ m₂ <;>
                simp [numMul, Value.toDense, he]
            · cases he : ewise (fun a b => a * b) m₁ m₂ <;>
                simp [dispatchMulV, spMultiply, numMul, Value.issparse, Value.toDense, he]
            · cases he : ewise (fun a b => a * b) m₁ m₂ <;>
                simp [dispatchMulV, spMultiply, numMul, Value.issparse, Value.toDense, he]
    | funv h =>
        cases y with
        | scalar q => rfl
        | arr sp m => cases sp <;> rfl
        | funv h₂ => rfl

/-- C8.  A Plain (`NumpyConcatenation`) node with exactly one child, and a
`DomainConcatenation` node with exactly one child, compile to a direct
pass-through `.ref` of the single child's reference with no concatenation
operation; with more than one child a concatenation of all children's
references (in declaration order) is emitted. -/
theorem single_child_concat_elision :
    (∀ c : Symb, instrOf (.npConcat (.cons c .nil)) = .ok (.ref (cref c))) ∧
    (∀ (c : Symb) (csl : List DomSlices) (fsl : DomSlices),
      domCovered csl fsl = true →
      instrOf (.domConcat (.cons c .nil) csl fsl) = .ok (.ref (cref c))) ∧
    (∀ (c₁ c₂ : Symb) (rest : SymbList),
      instrOf (.npConcat (.cons c₁ (.cons c₂ rest))) =
        .ok (.npConcat (((SymbList.cons c₁ (SymbList.cons c₂ rest)).toList).map cref))) := by
  refine ⟨fun c => rfl, ?_, ?_⟩
  · intro c csl fsl hcov
    obtain ⟨tr, htr⟩ := Option.isSome_iff_exists.mp (domTriples_isSome_of_covered hcov
      (((SymbList.cons c SymbList.nil).toList).map cref))
    rw [instrOf, htr]
    simp [SymbList.toList]
  · intro c₁ c₂ rest
    simp [instrOf, SymbList.toList]

/-! ## Compile-time failure on unrecognized node kinds -/

/-- C9 (amended).  A non-constant node of an unrecognized kind makes
linearization — and hence compilation — fail: an unrecognized node type
raises a `NotImplementedError` that names the offending kind, while an
unrecognized concatenation sub-kind raises a bare `NotImplementedError`
that names no kind; either way the error propagates unchanged through
`compile` and no artifact is produced. -/
theorem unsupported_kind_compile_error (Φ : Nat → Value → Option Value) :
    (∀ (k : String) (l : SymbList) (cs : ODV) (vs : ODE) (st : ODV × ODE),
      (Symb.unsupported k l).is_constant = false →
      find_symbols_list Φ l cs vs = .ok st →
      find_symbols Φ (.unsupported k l) cs vs = .error (.notImplementedType k) ∧
      CompileErr.namesKind (.notImplementedType k) = some k) ∧
    (∀ (k : String) (l : SymbList) (cs : ODV) (vs : ODE) (st : ODV × ODE),
      (Symb.concatOther k l).is_constant = false →
      find_symbols_list Φ l cs vs = .ok st →
      find_symbols Φ (.concatOther k l) cs vs = .error .notImplementedBare ∧
      CompileErr.namesKind .notImplementedBare = none) ∧
    (∀ (sym : Symb) (err : CompileErr),
      find_symbols Φ sym [] [] = .error err → compile Φ sym = .error err) := by
  refine ⟨?_, ?_, ?_⟩
  · intro k l cs vs st hnc hfsl
    refine ⟨?_, rfl⟩
    rw [find_symbols, if_neg (by simp [hnc])]
    simp only [hfsl, ok_bind]
    rfl
  · intro k l cs vs st hnc hfsl
    refine ⟨?_, rfl⟩
    rw [find_symbols, if_neg (by simp [hnc])]
    simp only [hfsl, ok_bind]
    rfl
  · intro sym err herr
    rw [compile, herr]
    rfl

/-! ## The known_evals calling convention -/

/-- C10.  For a compiled artifact and inputs `t`, `y` whose evaluation
yields `v`: calling `evaluate` with a non-`None` `known_evals` argument
returns the pair of `v` with the caller's `known_evals` object unchanged,
while calling with `known_evals` omitted (`None`) returns `v` alone — the
presence of `known_evals` changes only the return arity, never the computed
value or the post-call state. -/
theorem known_evals_passthrough {κ : Type} (Φ : Nat → Value → Option Value)
    (ev : Evaluator) (t : Option ℚ) (y : Option YArg) (k : κ) (v : Value)
    (ev' : Evaluator) (h : ev.evaluate Φ t y = some (v, ev')) :
    ev.evaluateK Φ t y (some k) = some (.pair v k, ev') ∧
    ev.evaluateK (κ := κ) Φ t y none = some (.val v, ev') := by
  rw [Evaluator.evaluateK, Evaluator.evaluateK, h]
  exact ⟨rfl, rfl⟩

/-! ## Concrete witness data -/

/-- An empty function environment (no `Function` nodes need interpreting). -/
def phiW : Nat → Value → Option Value := fun _ _ => none

/-- A function environment interpreting every handle as the identity
function. -/
def phiF : Nat → Value → Option Value := fun _ v => some v

/-- The graph `np.concatenate(([[2]], y[0:1]))`: non-constant, with a
constant subtree. -/
def symW : Symb :=
  .npConcat (.cons (.const (.arr false [[2]])) (.cons (.stateVector 0 1) .nil))

/-- A graph with a shared subtree:
`np.concatenate((y[0:2][0], y[0:2][0]))`. -/
def symC4 : Symb :=
  .npConcat (.cons (.idx 0 (.stateVector 0 2)) (.cons (.idx 0 (.stateVector 0 2)) .nil))

/-- A `Function` node applied to the state. -/
def symFnC3 : Symb := .fn 0 (.stateVector 0 1)

/-- A non-constant node of an unrecognized concatenation sub-kind. -/
def symC9 : Symb := .concatOther "Concatenation" (.cons (.stateVector 0 1) .nil)

/-- A non-constant node of an unrecognized type. -/
def symU : Symb := .unsupported "UserDefined" (.cons (.stateVector 0 1) .nil)

/-- The artifact `compile phiW symW` produces, written out. -/
def evC2 : Evaluator :=
  { attrs := [((.const (.arr false [[2]]), true), .arr false [[2]])]
    prog := [(.stateVector 0 1, .yRef 0 1),
             (symW, .npConcat [(.const (.arr false [[2]]), true),
                               (.stateVector 0 1, false)])]
    result_var := (symW, false) }

/-- `evC2` after `evaluate(t := None, y := [5])`: both generated
`self.var_xxx` attributes now live on the artifact. -/
def evC2post : Evaluator :=
  { evC2 with attrs := evC2.attrs ++
      [((.stateVector 0 1, false), .arr false [[5]]),
       ((symW, false), .arr false [[2], [5]])] }

/-- A trivial artifact whose program is empty and whose result handle reads
an embedded constant. -/
def evK : Evaluator :=
  { attrs := [((Symb.time, true), .scalar 1)]
    prog := []
    result_var := (Symb.time, true) }

/-! ## Witnesses and counterexamples -/

/-- Witness for C1: on `np.concatenate(([[2]], y[0:1]))` with `y = [3]` the
compiled artifact returns `[[2], [3]]`, the direct evaluation result. -/
theorem evaluator_matches_direct_eval_witness :
    ∃ ev ev', compile phiW symW = .ok ev ∧
      ev.evaluate phiW none (some (.vec [3])) = some (.arr false [[2], [3]], ev') :=
  evaluator_matches_direct_eval phiW symW none (some (.vec [3])) (.arr false [[2], [3]])
    (by decide) (by decide)

/-- Counterexample to C2 as stated: evaluating the compiled artifact for
`2 * y[0:1]` at `y = [5]` returns an artifact whose attributes now include
the generated `self.var_xxx` intermediate values — the call mutates the
artifact. -/
theorem evaluate_mutates_artifact :
    compile phiW symW = .ok evC2 ∧
    evC2.evaluate phiW none (some (.vec [5])) = some (.arr false [[2], [5]], evC2post) ∧
    evC2post ≠ evC2 :=
  ⟨by decide, by decide, by decide⟩

/-- Witness for C2 (amended): the mutated artifact still computes the
correct value at the new input `y = [3]`. -/
theorem evaluate_no_state_between_calls_witness :
    ∃ ev₂, evC2post.evaluate phiW none (some (.vec [3])) =
      some (.arr false [[2], [3]], ev₂) :=
  evaluate_no_state_between_calls phiW symW none (some (.vec [5])) none (some (.vec [3]))
    (.arr false [[2], [5]]) (.arr false [[2], [3]]) evC2 evC2post
    (by decide) (by decide) (by decide) (by decide)

/-- Counterexample to C3 as stated: the non-constant `Function` node's
identity appears in BOTH the constant table (its function handle) and the
instruction program (its call instruction). -/
theorem function_node_in_both_tables :
    ((find_symbols phiF symFnC3 [] []).toOption.map
      (fun s => decide (symFnC3 ∈ keysOf s.1) && decide (symFnC3 ∈ keysOf s.2))) =
      some true := by decide

/-- Witness for C3 (amended), on the `Function` graph `f(y[0:1])`. -/
theorem reachable_identity_placement_witness :
    ∃ cs vs, find_symbols phiF symFnC3 [] [] = .ok (cs, vs) ∧
      (∀ s ∈ reach symFnC3, (s ∈ keysOf cs ∨ s ∈ keysOf vs) ∧
        ((s ∈ keysOf cs ∧ s ∈ keysOf vs) ↔
          (s.is_constant = false ∧ ∃ hf a, s = Symb.fn hf a))) ∧
      (∀ k ∈ keysOf cs, k ∈ reach symFnC3) ∧ (∀ k ∈ keysOf vs, k ∈ reach symFnC3) :=
  reachable_identity_placement phiF symFnC3 none (some [[3]]) (.arr false [[3]])
    (by decide) (by decide)

/-- Witness for C4, on `(-y[0:1]) * (-y[0:1])`: the shared subtree is
compiled once. -/
theorem shared_subtrees_compiled_once_witness :
    ∃ cs vs, find_symbols phiW symC4 [] [] = .ok (cs, vs) ∧
      (keysOf vs).Nodup ∧ keysOf vs = fdVars symC4 [] ∧
      (∀ p ∈ vs, instrOf p.1 = .ok p.2) :=
  shared_subtrees_compiled_once phiW symC4 none (some [[3], [4]]) (.arr false [[3], [3]])
    (by decide) (by decide)

/-- Witness for C5, on `2 * y[0:1]`. -/
theorem program_dependency_order_witness :
    ∃ cs vs, find_symbols phiW symW [] [] = .ok (cs, vs) ∧
      DepOK (constRefs cs) vs ∧
      (∀ p ∈ vs, p.1.is_constant = false) ∧
      (∀ s ∈ reach symW, s.is_constant = false → s ∈ keysOf vs) ∧
      (∀ ev, compile phiW symW = .ok ev → ev.result_var = (symW, symW.is_constant)) ∧
      (∀ ev ev', compile phiW symW = .ok ev → compile phiW symW = .ok ev' → ev = ev') :=
  program_dependency_order phiW symW none (some [[3]]) (.arr false [[2], [3]])
    (by decide) (by decide)

/-- Witness for C6: the spec's own example — children declared
`[B (domain "right", slice 5:10), A (domain "left", slice 0:5)]` still get
emitted with `A`'s slice first. -/
theorem domConcat_sorted_by_final_start_witness :
    ∃ tr, domTriples (((SymbList.cons (Symb.stateVector 5 10)
        (SymbList.cons (Symb.stateVector 0 5) SymbList.nil)).toList).map cref)
        [[("right", 0, 5)], [("left", 0, 5)]] [("left", 0, 5), ("right", 5, 10)]
        = some tr ∧
      instrOf (.domConcat (.cons (.stateVector 5 10) (.cons (.stateVector 0 5) .nil))
          [[("right", 0, 5)], [("left", 0, 5)]] [("left", 0, 5), ("right", 5, 10)]) =
        .ok (.npConcatSlices ((sortByKey tr).map (fun q => (q.2.1, q.2.2.1, q.2.2.2)))) ∧
      (sortByKey tr).Pairwise (fun a b => a.1 ≤ b.1) ∧
      List.Perm (sortByKey tr) tr ∧
      ∀ q ∈ sortByKey tr,
        q.2.1 ∈ ((SymbList.cons (Symb.stateVector 5 10)
          (SymbList.cons (Symb.stateVector 0 5) SymbList.nil)).toList).map cref :=
  domConcat_sorted_by_final_start (.stateVector 5 10) (.stateVector 0 5) .nil
    [[("right", 0, 5)], [("left", 0, 5)]] [("left", 0, 5), ("right", 5, 10)] (by decide)

/-- Witness for C7: concrete dispatches — both-sparse prefers the left
operand, sparse-right swaps the receiver, dense-dense uses the plain
product, sparse-left division multiplies by the reciprocal. -/
theorem multiply_divide_sparse_dispatch_witness :
    dispatchMulV (.arr true [[2]]) (.arr true [[3]]) =
      spMultiply (.arr true [[2]]) (.arr true [[3]]) ∧
    dispatchMulV (.arr false [[2]]) (.arr true [[3]]) =
      spMultiply (.arr true [[3]]) (.arr false [[2]]) ∧
    dispatchMulV (.arr false [[2]]) (.arr false [[3]]) =
      numMul (.arr false [[2]]) (.arr false [[3]]) ∧
    dispatchDivV (.arr true [[2]]) (.scalar 2) =
      (recipV (.scalar 2)).bind (spMultiply (.arr true [[2]])) ∧
    dispatchDivV (.arr false [[2]]) (.scalar 2) =
      numDiv (.arr false [[2]]) (.scalar 2) :=
  ⟨multiply_divide_sparse_dispatch.2.2.1 _ _ rfl,
   multiply_divide_sparse_dispatch.2.2.2.1 _ _ rfl rfl,
   multiply_divide_sparse_dispatch.2.2.2.2.1 _ _ rfl rfl,
   multiply_divide_sparse_dispatch.2.2.2.2.2.1 _ _ rfl,
   multiply_divide_sparse_dispatch.2.2.2.2.2.2.1 _ _ rfl⟩

/-- Witness for C8: concrete elisions and a concrete two-child
concatenation. -/
theorem single_child_concat_elision_witness :
    instrOf (.npConcat (.cons (.stateVector 0 1) .nil)) =
      .ok (.ref (cref (.stateVector 0 1))) ∧
    instrOf (.domConcat (.cons (.stateVector 0 5) .nil)
        [[("left", 0, 5)]] [("left", 0, 5)]) =
      .ok (.ref (cref (.stateVector 0 5))) ∧
    instrOf (.npConcat (.cons (.stateVector 0 1) (.cons .time .nil))) =
      .ok (.npConcat (((SymbList.cons (Symb.stateVector 0 1)
        (SymbList.cons Symb.time SymbList.nil)).toList).map cref)) :=
  ⟨single_child_concat_elision.1 _,
   single_child_concat_elision.2.1 _ _ _ (by decide),
   single_child_concat_elision.2.2 _ _ _⟩

/-- Counterexample to C9 as stated: an unrecognized concatenation sub-kind
fails compilation with the bare `NotImplementedError`, which names no
offending kind. -/
theorem bare_not_implemented_error :
    compile phiW symC9 = .error .notImplementedBare ∧
    CompileErr.namesKind .notImplementedBare = none :=
  ⟨by decide, rfl⟩

/-- Witness for C9 (amended): an unrecognized node type yields the named
error, the unrecognized concatenation sub-kind yields the bare one, and the
error propagates through `compile`. -/
theorem unsupported_kind_compile_error_witness :
    (find_symbols phiW symU [] [] = .error (.notImplementedType "UserDefined") ∧
     CompileErr.namesKind (.notImplementedType "UserDefined") = some "UserDefined") ∧
    (find_symbols phiW symC9 [] [] = .error .notImplementedBare ∧
     CompileErr.namesKind .notImplementedBare = none) ∧
    compile phiW symU = .error (.notImplementedType "UserDefined") :=
  ⟨(unsupported_kind_compile_error phiW).1 "UserDefined"
      (.cons (.stateVector 0 1) .nil) [] []
      ([], [(.stateVector 0 1, .yRef 0 1)]) (by decide) (by decide),
   (unsupported_kind_compile_error phiW).2.1 "Concatenation"
      (.cons (.stateVector 0 1) .nil) [] []
      ([], [(.stateVector 0 1, .yRef 0 1)]) (by decide) (by decide),
   (unsupported_kind_compile_error phiW).2.2 symU
      (.notImplementedType "UserDefined") (by decide)⟩

/-- Witness for C10: a concrete artifact returns `(value, known_evals)`
with `known_evals = 42` unchanged, and the bare value without it. -/
theorem known_evals_passthrough_witness :
    evK.evaluateK phiW none none (some 42) = some (.pair (.scalar 1) 42, evK) ∧
    evK.evaluateK (κ := Nat) phiW none none none = some (.val (.scalar 1), evK) :=
  known_evals_passthrough phiW evK none none 42 (.scalar 1) evK (by decide)
